import Mathlib

/-!
# Verification of the `scunch` ant-glob and punching engine

Shallow embedding of `scunch/antglob.py` and the planning part of
`scunch/scunch.py` (a Python 2 code base), together with theorems that
settle the specification claims.

Conventions of the embedding:
* The code is modelled for a POSIX system: `os.sep = '/'`,
  `os.path.normcase` is the identity (so `fnmatch.fnmatch` is the
  case-sensitive matcher) and `os.linesep = "\n"`.
* Python strings are Lean `String`s; the character-level algorithms work on
  `List Char` obtained through `String.toList`.
* Python `None`-able results are `Option`, raised exceptions are `Except`.
* Python `set`s of file system entries (whose `__eq__`/`__hash__` use only
  `parts`) are modelled as lists without duplicates modulo `parts`; the
  iteration order of such a set, which CPython leaves unspecified, is
  modelled as the insertion order of the list.
-/

namespace Scunch

/-! ## Python string primitives -/

/-- Python `c in chars` for a set of characters given as a list. -/
def charIn (c : Char) (chars : List Char) : Bool :=
  chars.contains c

/-- Python `s.rstrip(chars)` on `List Char`: remove the longest trailing run
of characters that belong to `chars`. -/
def pyRstrip (chars : List Char) (s : List Char) : List Char :=
  ((s.reverse.dropWhile (fun c => charIn c chars)).reverse)

/-- Characters Python's `str.strip()` / `str.split()` treat as whitespace
(ASCII range, as relevant for pattern texts). -/
def pyWhitespace : List Char :=
  [' ', '\t', '\n', '\r', '\x0b', '\x0c']

/-- Python `s.strip()` (no argument): strip whitespace on both ends. -/
def pyStrip (s : List Char) : List Char :=
  pyRstrip pyWhitespace (s.dropWhile (fun c => charIn c pyWhitespace))

/-- Python `s.split(sep)` for a single-character separator: split at every
occurrence, keeping empty parts. -/
def pySplitOn (sep : Char) (s : List Char) : List (List Char) :=
  match s with
  | [] => [[]]
  | c :: rest =>
    let tail := pySplitOn sep rest
    if c = sep then
      [] :: tail
    else
      match tail with
      | [] => [[c]]
      | t :: ts => (c :: t) :: ts

theorem dropWhile_length_le {α : Type} (p : α → Bool) (l : List α) :
    (l.dropWhile p).length ≤ l.length := by
  induction l with
  | nil => simp
  | cons c cs ih =>
    by_cases h : p c <;> simp [List.dropWhile, h] <;> omega

/-- Python `s.split()` (no argument): split on whitespace runs, discarding
empty parts.  Every round consumes at least one character, so the fuel
(always supplied as `length + 1` by `pySplitWhitespace`) never runs out. -/
def pySplitWhitespaceAux : Nat → List Char → List (List Char)
  | 0, _ => []
  | fuel + 1, s =>
    match s.dropWhile (fun c => charIn c pyWhitespace) with
    | [] => []
    | c :: rest =>
      (c :: rest.takeWhile (fun c => ¬ charIn c pyWhitespace)) ::
        pySplitWhitespaceAux fuel (rest.dropWhile (fun c => ¬ charIn c pyWhitespace))

def pySplitWhitespace (s : List Char) : List (List Char) :=
  pySplitWhitespaceAux (s.length + 1) s

/-- Python `s.lower()` restricted to ASCII (sufficient for the names in the
claims; `scunch` only lower-cases path segments). -/
def pyLower (s : List Char) : List Char :=
  s.map Char.toLower

/-! ## `fnmatch.fnmatch`

`fnmatch.translate` turns a shell pattern into a regular expression:
`*` becomes `.*`, `?` becomes `.`, and `[seq]` / `[!seq]` become character
classes (an unterminated `[` is matched literally).  The functions below are
a direct matcher with the same semantics, against which the `Many`/`One`
pattern items of `antglob` are evaluated. -/

/-- Membership of `c` in the body of a regex character class (ranges `a-b`
plus literals, a `-` at either end being literal), as produced by
`fnmatch.translate`. -/
def charInClass (c : Char) : List Char → Bool
  | a :: '-' :: b :: rest => (a ≤ c ∧ c ≤ b) || charInClass c rest
  | a :: rest => (c == a) || charInClass c rest
  | [] => false

/-- Collect the body of a character class up to the closing `]`; `none`
when the pattern has no closing `]`. -/
def scanClassAux : List Char → Option (List Char × List Char)
  | [] => none
  | ']' :: rest => some ([], rest)
  | c :: rest => (scanClassAux rest).map (fun br => (c :: br.1, br.2))

theorem scanClassAux_rest_length {l b r} (h : scanClassAux l = some (b, r)) :
    r.length < l.length := by
  induction l generalizing b r with
  | nil => simp [scanClassAux] at h
  | cons c rest ih =>
    by_cases hc : c = ']'
    · subst hc
      simp [scanClassAux] at h
      simp [← h.2]
    · rw [show scanClassAux (c :: rest) =
          (scanClassAux rest).map (fun br => (c :: br.1, br.2)) by
            cases rest <;> simp [scanClassAux, hc] <;>
              (cases c <;> simp_all [scanClassAux])] at h
      match hrec : scanClassAux rest with
      | none => rw [hrec] at h; simp at h
      | some (b', r') =>
        rw [hrec] at h
        simp at h
        have := ih hrec
        simp [← h.2]
        omega

/-- The part of the class scan after the optional negation marker: a `]`
directly at the start belongs to the class body; the class ends at the
next `]`. -/
def scanClassBody (neg : Bool) (q : List Char) : Option (Bool × List Char × List Char) :=
  match q with
  | ']' :: rest => (scanClassAux rest).map (fun br => (neg, ']' :: br.1, br.2))
  | _ => (scanClassAux q).map (fun br => (neg, br.1, br.2))

/-- Scan the part of a shell pattern following `[` the way
`fnmatch.translate` does: an optional leading `!` negates; a `]` directly
after that belongs to the class body; the class ends at the next `]`.
Returns `(negated, class body, rest of pattern)`, or `none` when no closing
`]` exists (the `[` is then literal). -/
def scanClass (p : List Char) : Option (Bool × List Char × List Char) :=
  match p with
  | '!' :: afterBang => scanClassBody true afterBang
  | _ => scanClassBody false p

theorem scanClassBody_rest_length {neg : Bool} {q : List Char} {n : Bool}
    {b r : List Char} (h : scanClassBody neg q = some (n, b, r)) :
    r.length < q.length + 1 := by
  unfold scanClassBody at h
  split at h <;>
    (rw [Option.map_eq_some'] at h
     obtain ⟨⟨b', r'⟩, hx, hy⟩ := h
     have := scanClassAux_rest_length hx
     have hr : r = r' := by
       have := congrArg (fun t => t.2.2) hy
       simpa using this.symm
     subst hr
     simp_all
     omega)

theorem scanClass_rest_length {p : List Char} {n : Bool} {b r : List Char}
    (h : scanClass p = some (n, b, r)) : r.length < p.length + 1 := by
  unfold scanClass at h
  split at h
  · have := scanClassBody_rest_length h
    simp_all
    omega
  · have := scanClassBody_rest_length h
    omega

/-- `fnmatch.fnmatch(text, pattern)` on POSIX (where `os.path.normcase` is
the identity): full match of `text` against the shell pattern. -/
def fnmatchChars (pattern text : List Char) : Bool :=
  match pattern, text with
  | [], t => t.isEmpty
  | '*' :: ps, t =>
    fnmatchChars ps t ||
      (match t with
       | [] => false
       | _ :: ts => fnmatchChars ('*' :: ps) ts)
  | '?' :: ps, t =>
    match t with
    | [] => false
    | _ :: ts => fnmatchChars ps ts
  | '[' :: ps, t =>
    match hscan : scanClass ps with
    | some (negated, body, rest) =>
      match t with
      | [] => false
      | c :: ts => (negated ^^ charInClass c body) && fnmatchChars rest ts
    | none =>
      match t with
      | [] => false
      | c :: ts => (c == '[') && fnmatchChars ps ts
  | p :: ps, t =>
    match t with
    | [] => false
    | c :: ts => (c == p) && fnmatchChars ps ts
termination_by pattern.length + text.length
decreasing_by
  all_goals simp_arith
  all_goals try omega
  have := scanClass_rest_length hscan
  omega

def fnmatch (text pattern : String) : Bool :=
  fnmatchChars pattern.toList text.toList

/-! ## `antglob._splitTextParts`

Path splitting is modelled for POSIX (`os.sep = '/'`).  `os.path.split`
splits at the last separator and strips trailing separators from the head
unless the head consists only of separators. -/

/-- POSIX `os.path.split`. -/
def pyPathSplit (s : List Char) : List Char × List Char :=
  let revs := s.reverse
  let tail := (revs.takeWhile (fun c => c ≠ '/')).reverse
  let headRaw := (revs.dropWhile (fun c => c ≠ '/')).reverse
  let head :=
    if headRaw ≠ [] ∧ headRaw.any (fun c => c ≠ '/') then
      pyRstrip ['/'] headRaw
    else headRaw
  (head, tail)

/-- The `while remainingText and (remainingText != pathSeperator)` loop of
`_splitTextParts`, with `result.insert(0, part)` accumulating parts.  The
Python loop makes no progress (and hangs) on inputs consisting only of two
or more separators; the fuel argument, always called with more fuel than
the input length, makes the model total and agrees with Python on every
input on which Python terminates. -/
def splitTextPartsAux : Nat → List Char → List (List Char) → List (List Char)
  | 0, _, acc => acc
  | fuel + 1, remaining, acc =>
    if remaining.isEmpty ∨ remaining = ['/'] then acc
    else
      let (head, part) := pyPathSplit remaining
      splitTextPartsAux fuel head (part :: acc)

/-- `antglob._splitTextParts`: unify `\` to `/`, optionally append `**`
when the text ends in a separator, then split into parts. -/
def splitTextParts (text : String) (fixAllMagicAtEnd : Bool := false) : List String :=
  let unified := text.toList.map (fun c => if c = '\\' then '/' else c)
  let withMagic :=
    if fixAllMagicAtEnd ∧ unified.getLast? = some '/' then
      unified ++ ['*', '*']
    else unified
  (splitTextPartsAux (withMagic.length + 1) withMagic []).map (fun l => String.mk l)

/-! ## `AntPatternItem`, `AntPattern` and the matcher -/

/-- `AntPatternItem.All` / `Many` / `One`. -/
inductive AntItemKind where
  | all
  | many
  | one
deriving DecidableEq, Repr

/-- An ant pattern item holds the text of one path segment of the pattern;
its kind is derived deterministically from the text
(`AntPatternItem.__init__`). -/
structure AntPatternItem where
  pattern : String
deriving DecidableEq, Repr

/-- `_AntMagicRegEx.search(text)`: the text contains one of `*`, `?`, `[`. -/
def hasMagic (s : String) : Bool :=
  s.toList.any (fun c => c = '*' ∨ c = '?' ∨ c = '[')

/-- The kind assigned by `AntPatternItem.__init__`. -/
def AntPatternItem.kind (item : AntPatternItem) : AntItemKind :=
  if item.pattern = "**" then .all
  else if hasMagic item.pattern then .many
  else .one

/-- `AntPatternItem.matches`: an `All` item matches anything, the others
are evaluated with `fnmatch.fnmatch`. -/
def AntPatternItem.matches (item : AntPatternItem) (text : String) : Bool :=
  if item.kind = .all then true
  else fnmatch text item.pattern

/-- `_findItemInList(_AntAllMagic, items)`: first index of an item whose
pattern text is `**` (`AntPatternItem.__cmp__` falls back to comparing the
pattern text with the string needle). -/
def findAllMagicIndex : List AntPatternItem → Option Nat
  | [] => none
  | item :: rest =>
    if item.pattern = "**" then some 0
    else (findAllMagicIndex rest).map (· + 1)

/-- Python's clamping slice `l[-k:]` (for `k = 0` Python returns the whole
list). -/
def pyTakeLast {α : Type} (k : Nat) (l : List α) : List α :=
  if k = 0 then l else l.drop (l.length - k)

theorem pyTakeLast_length_le {α : Type} (k : Nat) (l : List α) :
    (pyTakeLast k l).length ≤ l.length := by
  unfold pyTakeLast
  split <;> simp

mutual

/-- `antglob._textItemsMatchPatternItems`, the recursive matcher. -/
def textItemsMatchPatternItems (textItems : List String)
    (patternItems : List AntPatternItem) : Bool :=
  match patternItems with
  | [] =>
    -- Text matches pattern if both do not contain even a single part.
    textItems.isEmpty
  | firstPatternItem :: patternRest =>
    match textItems with
    | [] =>
      -- We have a pattern but no text: a single empty part, a single "*"
      -- or a single "**" still match.
      if patternRest.isEmpty then
        match firstPatternItem.kind with
        | .one => firstPatternItem.pattern = ""
        | .many => firstPatternItem.pattern = "*"
        | .all => true
      else false
    | firstText :: textRest =>
      if firstPatternItem.kind = .all then
        if patternRest.isEmpty then
          -- "**" at end of pattern matches everything.
          true
        else
          match findAllMagicIndex patternRest with
          | none =>
            -- Last "**": check that the tail of the text matches the end
            -- of the remaining pattern (`textItems[-len(rest):]`).
            textItemsAreAtEndOfPatternItems
              (pyTakeLast patternRest.length (firstText :: textRest)) patternRest
          | some idx0 =>
            -- Another "**" at index `idx0 + 1` of `patternItems`: search
            -- the text for the sub-pattern between the two "**".
            let patternItemsBetweenAllMagic := patternRest.take idx0
            match indexInTextItemsWherePatternPartsMatch
                (firstText :: textRest) patternItemsBetweenAllMagic with
            | some i =>
              textItemsMatchPatternItems
                ((firstText :: textRest).drop
                  (i + patternItemsBetweenAllMagic.length))
                (patternRest.drop idx0)
            | none => false
      else
        if firstPatternItem.matches firstText then
          textItemsMatchPatternItems textRest patternRest
        else false
termination_by (patternItems.length, 0, textItems.length)

/-- `antglob._textItemsAreAtEndOfPatternItems`
(`patternItems[-len(textItems):]` is the clamping Python slice). -/
def textItemsAreAtEndOfPatternItems (textItems : List String)
    (patternItems : List AntPatternItem) : Bool :=
  textItemsMatchPatternItems textItems (pyTakeLast textItems.length patternItems)
termination_by (patternItems.length, 1, 0)
decreasing_by
  have h := pyTakeLast_length_le textItems.length patternItems
  simp_wf
  rcases Nat.lt_or_eq_of_le h with h' | h'
  · exact Prod.Lex.left _ _ h'
  · rw [h']
    exact Prod.Lex.right _ (Prod.Lex.left _ _ (by omega))

/-- `antglob._indexInTextItemsWherePatternPartsMatch`: first index of a
window of `textParts` of the pattern's length that matches it. -/
def indexInTextItemsWherePatternPartsMatch (textParts : List String)
    (patternParts : List AntPatternItem) : Option Nat :=
  if patternParts.length ≤ textParts.length then
    if textItemsMatchPatternItems (textParts.take patternParts.length)
        patternParts then
      some 0
    else
      match textParts with
      | [] => none
      | _ :: ts =>
        (indexInTextItemsWherePatternPartsMatch ts patternParts).map (· + 1)
  else none
termination_by (patternParts.length, 1, textParts.length)

end

/-- `AntPattern`: the items of one compiled pattern. -/
structure AntPattern where
  patternItems : List AntPatternItem
deriving DecidableEq, Repr

/-- `AntPattern.__init__`. -/
def antPattern (patternText : String) : AntPattern :=
  ⟨(splitTextParts patternText true).map (fun t => ⟨t⟩)⟩

/-- `AntPattern.matchesParts`. -/
def AntPattern.matchesParts (p : AntPattern) (textItems : List String) : Bool :=
  textItemsMatchPatternItems textItems p.patternItems

/-- `AntPattern.matches`. -/
def AntPattern.matches (p : AntPattern) (text : String) : Bool :=
  p.matchesParts (splitTextParts text)

/-! ## `AntPatternSet` -/

/-- `antglob.DefaultExcludes` (ant 1.8.2 defaults). -/
def DefaultExcludes : List String :=
  [ "**/*~",
    "**/#*#",
    "**/.#*",
    "**/%*%",
    "**/._*",
    "**/CVS",
    "**/CVS/**",
    "**/.cvsignore",
    "**/SCCS",
    "**/SCCS/**",
    "**/vssver.scc",
    "**/.svn",
    "**/.svn/**",
    "**/.DS_Store",
    "**/.git",
    "**/.git/**",
    "**/.gitattributes",
    "**/.gitignore",
    "**/.gitmodules",
    "**/.hg",
    "**/.hg/**",
    "**/.hgignore",
    "**/.hgsub",
    "**/.hgsubstate",
    "**/.hgtags",
    "**/.bzr",
    "**/.bzr/**",
    "**/.bzrignore" ]

/-- `antglob.createAntPatterns`: a comma anywhere makes commas the only
separator (parts stripped); without a comma the text splits on
whitespace. -/
def createAntPatterns (patternListText : String) : List AntPattern :=
  let chars := patternListText.toList
  let patternText :=
    if chars.contains ',' then
      (pySplitOn ',' chars).map pyStrip
    else
      pySplitWhitespace chars
  patternText.map (fun t => antPattern (String.mk t))

/-- `AntPatternSet`: ordered include and exclude pattern lists. -/
structure AntPatternSet where
  includePatterns : List AntPattern
  excludePatterns : List AntPattern
deriving Repr

/-- `AntPatternSet._addPatternDefinition` for a string definition. -/
def AntPatternSet.addPatternDefinition (target : List AntPattern)
    (patternDefinition : String) : List AntPattern :=
  target ++ createAntPatterns patternDefinition

/-- `AntPatternSet.include` with a string argument. -/
def AntPatternSet.include (s : AntPatternSet) (patternDefinition : String) :
    AntPatternSet :=
  { s with includePatterns :=
      AntPatternSet.addPatternDefinition s.includePatterns patternDefinition }

/-- `AntPatternSet.exclude` with a string argument. -/
def AntPatternSet.exclude (s : AntPatternSet) (patternDefinition : String) :
    AntPatternSet :=
  { s with excludePatterns :=
      AntPatternSet.addPatternDefinition s.excludePatterns patternDefinition }

/-- `AntPatternSet.__init__`: empty include list; the excludes are seeded
with `DefaultExcludes` unless `useDefaultExcludes` is false. -/
def antPatternSet (useDefaultExcludes : Bool := true) : AntPatternSet :=
  if useDefaultExcludes then
    DefaultExcludes.foldl (fun s p => s.exclude p) ⟨[], []⟩
  else
    ⟨[], []⟩

/-- `AntPatternSet._matchesAnyPatternIn`. -/
def AntPatternSet.matchesAnyPatternIn (textItems : List String)
    (patterns : List AntPattern) : Bool :=
  patterns.any (fun p => p.matchesParts textItems)

/-- `AntPatternSet.matchesParts`. -/
def AntPatternSet.matchesParts (s : AntPatternSet)
    (partsToMatch : List String) : Bool :=
  let result :=
    if ¬ s.includePatterns.isEmpty then
      AntPatternSet.matchesAnyPatternIn partsToMatch s.includePatterns
    else true
  if result ∧ ¬ s.excludePatterns.isEmpty ∧
      AntPatternSet.matchesAnyPatternIn partsToMatch s.excludePatterns then
    false
  else result

/-- `AntPatternSet.matches`. -/
def AntPatternSet.matches (s : AntPatternSet) (text : String) : Bool :=
  s.matchesParts (splitTextParts text)

/-! ## Fuelled evaluators

The matcher and `fnmatch` above are defined by well-founded recursion,
which the kernel does not reduce.  For evaluating them on concrete inputs
we define equivalent fuelled versions by structural recursion on a fuel
counter and prove that, with enough fuel, they agree with the functions
above.  Every recursive call of `fnmatchChars` shrinks
`pattern.length + text.length`, and every recursive call of the matcher
shrinks the pattern-item list, which gives the fuel bounds. -/

/-- Fuelled version of `fnmatchChars`. -/
def fnmatchCharsE : Nat → List Char → List Char → Bool
  | 0, _, _ => false
  | fuel + 1, pattern, text =>
    match pattern, text with
    | [], t => t.isEmpty
    | '*' :: ps, t =>
      fnmatchCharsE fuel ps t ||
        (match t with
         | [] => false
         | _ :: ts => fnmatchCharsE fuel ('*' :: ps) ts)
    | '?' :: ps, t =>
      match t with
      | [] => false
      | _ :: ts => fnmatchCharsE fuel ps ts
    | '[' :: ps, t =>
      match scanClass ps with
      | some (negated, body, rest) =>
        match t with
        | [] => false
        | c :: ts => (negated ^^ charInClass c body) && fnmatchCharsE fuel rest ts
      | none =>
        match t with
        | [] => false
        | c :: ts => (c == '[') && fnmatchCharsE fuel ps ts
    | p :: ps, t =>
      match t with
      | [] => false
      | c :: ts => (c == p) && fnmatchCharsE fuel ps ts

theorem fnmatchCharsE_eq (pattern text : List Char) :
    ∀ fuel, pattern.length + text.length < fuel →
      fnmatchCharsE fuel pattern text = fnmatchChars pattern text := by
  induction pattern, text using fnmatchChars.induct with
  | case1 t =>
    intro fuel h
    cases fuel with
    | zero => omega
    | succ f => simp [fnmatchCharsE, fnmatchChars.eq_1]
  | case2 ps t ih1 ih2 =>
    intro fuel h
    cases fuel with
    | zero => omega
    | succ f =>
      cases t with
      | nil =>
        simp only [fnmatchCharsE, fnmatchChars.eq_2]
        rw [ih1 f (by simp at h ⊢; omega)]
      | cons c ts =>
        simp only [fnmatchCharsE, fnmatchChars.eq_3]
        rw [ih1 f (by simp at h ⊢; omega), ih2 f (by simp at h ⊢; omega)]
  | case3 ps =>
    intro fuel h
    cases fuel with
    | zero => omega
    | succ f => simp [fnmatchCharsE, fnmatchChars]
  | case4 ps c rest ih =>
    intro fuel h
    cases fuel with
    | zero => omega
    | succ f =>
      simp only [fnmatchCharsE, fnmatchChars]
      rw [ih f (by simp at h ⊢; omega)]
  | case5 ps negated body rest hscan =>
    intro fuel h
    cases fuel with
    | zero => omega
    | succ f =>
      simp only [fnmatchCharsE, fnmatchChars, hscan]
      split <;> rfl
  | case6 ps negated body rest hscan c ts ih =>
    intro fuel h
    cases fuel with
    | zero => omega
    | succ f =>
      have hlen := scanClass_rest_length hscan
      have hih := ih f (by simp at h ⊢; omega)
      simp only [fnmatchCharsE, fnmatchChars, hscan, hih]
      split
      · rename_i n' b' r' heq
        rw [hscan] at heq
        cases heq
        rfl
      · rename_i heq
        rw [hscan] at heq
        cases heq
  | case7 ps hscan =>
    intro fuel h
    cases fuel with
    | zero => omega
    | succ f =>
      simp only [fnmatchCharsE, fnmatchChars, hscan]
      split <;> rfl
  | case8 ps hscan c ts ih =>
    intro fuel h
    cases fuel with
    | zero => omega
    | succ f =>
      have hih := ih f (by simp at h ⊢; omega)
      simp only [fnmatchCharsE, fnmatchChars, hscan, hih]
      split
      · rename_i n' b' r' heq
        rw [hscan] at heq
        cases heq
      · rfl
  | case9 p ps h1 h2 h3 =>
    intro fuel h
    cases fuel with
    | zero => omega
    | succ f => simp [fnmatchCharsE, fnmatchChars, h1, h2, h3]
  | case10 p ps h1 h2 h3 c ts ih =>
    intro fuel h
    cases fuel with
    | zero => omega
    | succ f =>
      simp only [fnmatchCharsE, fnmatchChars, h1, h2, h3]
      rw [ih f (by simp at h ⊢; omega)]

/-- `AntPatternItem.matches` through the fuelled `fnmatch`. -/
def AntPatternItem.matchesE (item : AntPatternItem) (text : String) : Bool :=
  if item.kind = .all then true
  else
    fnmatchCharsE (item.pattern.toList.length + text.toList.length + 1)
      item.pattern.toList text.toList

theorem AntPatternItem.matchesE_eq (item : AntPatternItem) (text : String) :
    item.matchesE text = item.matches text := by
  unfold AntPatternItem.matchesE AntPatternItem.matches fnmatch
  split
  · rfl
  · exact fnmatchCharsE_eq _ _ _ (by omega)

theorem find?_congr {α : Type} {p q : α → Bool} (l : List α)
    (h : ∀ x ∈ l, p x = q x) : l.find? p = l.find? q := by
  induction l with
  | nil => rfl
  | cons x xs ih =>
    simp only [List.find?]
    rw [h x (by simp)]
    split <;> [rfl; exact ih (fun y hy => h y (by simp [hy]))]

theorem any_congr {α : Type} {p q : α → Bool} (l : List α)
    (h : ∀ x ∈ l, p x = q x) : l.any p = l.any q := by
  induction l with
  | nil => rfl
  | cons x xs ih =>
    simp only [List.any]
    rw [h x (by simp), ih (fun y hy => h y (by simp [hy]))]

/-- Fuelled version of the matcher.  The window search of
`_indexInTextItemsWherePatternPartsMatch` is expressed with `List.find?`
over the candidate start indices, which `indexWhere_eq_findRange` below
shows to be the same search. -/
def textItemsMatchPatternItemsE : Nat → List String → List AntPatternItem → Bool
  | 0, _, _ => false
  | fuel + 1, textItems, patternItems =>
    match patternItems with
    | [] => textItems.isEmpty
    | firstPatternItem :: patternRest =>
      match textItems with
      | [] =>
        if patternRest.isEmpty then
          match firstPatternItem.kind with
          | .one => firstPatternItem.pattern = ""
          | .many => firstPatternItem.pattern = "*"
          | .all => true
        else false
      | firstText :: textRest =>
        if firstPatternItem.kind = .all then
          if patternRest.isEmpty then true
          else
            match findAllMagicIndex patternRest with
            | none =>
              let tail := pyTakeLast patternRest.length (firstText :: textRest)
              textItemsMatchPatternItemsE fuel tail (pyTakeLast tail.length patternRest)
            | some idx0 =>
              let between := patternRest.take idx0
              match (List.range ((firstText :: textRest).length + 1 - between.length)).find?
                  (fun i => textItemsMatchPatternItemsE fuel
                    (((firstText :: textRest).drop i).take between.length) between) with
              | some i =>
                textItemsMatchPatternItemsE fuel
                  ((firstText :: textRest).drop (i + between.length))
                  (patternRest.drop idx0)
              | none => false
        else
          if firstPatternItem.matchesE firstText then
            textItemsMatchPatternItemsE fuel textRest patternRest
          else false

/-- The recursive window search of the source equals the leftmost matching
start index. -/
theorem indexWhere_eq_findRange (t : List String) (pp : List AntPatternItem) :
    indexInTextItemsWherePatternPartsMatch t pp =
      (List.range (t.length + 1 - pp.length)).find?
        (fun i => textItemsMatchPatternItems ((t.drop i).take pp.length) pp) := by
  induction t with
  | nil =>
    rw [indexInTextItemsWherePatternPartsMatch]
    by_cases hpp : pp.length ≤ ([] : List String).length
    · have hnil : pp = [] := by simpa using hpp
      subst hnil
      simp [textItemsMatchPatternItems.eq_1, List.find?]
    · rw [if_neg hpp]
      have hgt : 0 < pp.length := by
        have := Nat.gt_of_not_le hpp
        simpa using this
      have hz : ([] : List String).length + 1 - pp.length = 0 := by
        simp only [List.length_nil]
        omega
      rw [hz]
      rfl
  | cons x ts ih =>
    rw [indexInTextItemsWherePatternPartsMatch]
    by_cases hpp : pp.length ≤ (x :: ts).length
    · rw [if_pos hpp]
      have hr : (x :: ts).length + 1 - pp.length = (ts.length + 1 - pp.length) + 1 := by
        simp at hpp ⊢; omega
      rw [hr, List.range_succ_eq_map, List.find?]
      have h0 : (((x :: ts).drop 0).take pp.length) = (x :: ts).take pp.length := by
        simp
      cases hw : textItemsMatchPatternItems ((x :: ts).take pp.length) pp with
      | true => simp [h0, hw]
      | false =>
        simp only [h0, hw, cond_false, Bool.false_eq_true, if_false]
        rw [List.find?_map]
        have hpred : ∀ i ∈ List.range (ts.length + 1 - pp.length),
            ((fun i => textItemsMatchPatternItems (((x :: ts).drop i).take pp.length) pp) ∘
              Nat.succ) i =
            (fun i => textItemsMatchPatternItems ((ts.drop i).take pp.length) pp) i := by
          intro i _
          simp [Function.comp, List.drop_succ_cons]
        rw [find?_congr _ hpred, ← ih]
    · rw [if_neg hpp]
      have hz : (x :: ts).length + 1 - pp.length = 0 := by simp at hpp ⊢; omega
      rw [hz]
      rfl

/-- With fuel exceeding the pattern length the fuelled matcher agrees with
the source matcher. -/
theorem textItemsMatchPatternItemsE_eq :
    ∀ (fuel : Nat) (t : List String) (p : List AntPatternItem),
      p.length < fuel →
      textItemsMatchPatternItemsE fuel t p = textItemsMatchPatternItems t p := by
  intro fuel
  induction fuel with
  | zero => intro t p h; omega
  | succ f ih =>
    intro t p hp
    match p with
    | [] =>
      simp [textItemsMatchPatternItemsE, textItemsMatchPatternItems.eq_1]
    | first :: rest =>
      match t with
      | [] =>
        simp only [textItemsMatchPatternItemsE, textItemsMatchPatternItems.eq_2]
      | x :: ts =>
        rw [textItemsMatchPatternItems.eq_3]
        simp only [textItemsMatchPatternItemsE]
        simp only [List.length_cons] at hp
        by_cases hk : first.kind = AntItemKind.all
        · simp only [hk, if_true]
          cases hre : rest.isEmpty with
          | true => simp
          | false =>
            simp only [Bool.false_eq_true, if_false]
            cases hmag : findAllMagicIndex rest with
            | none =>
              dsimp only
              rw [textItemsAreAtEndOfPatternItems]
              apply ih
              have h1 := pyTakeLast_length_le rest.length (x :: ts)
              have h2 := pyTakeLast_length_le
                (pyTakeLast rest.length (x :: ts)).length rest
              omega
            | some idx0 =>
              dsimp only
              have hfind :
                  (List.range ((x :: ts).length + 1 - (rest.take idx0).length)).find?
                    (fun i => textItemsMatchPatternItemsE f
                      (((x :: ts).drop i).take (rest.take idx0).length) (rest.take idx0)) =
                  (List.range ((x :: ts).length + 1 - (rest.take idx0).length)).find?
                    (fun i => textItemsMatchPatternItems
                      (((x :: ts).drop i).take (rest.take idx0).length) (rest.take idx0)) := by
                apply find?_congr
                intro i _
                apply ih
                have : (rest.take idx0).length ≤ rest.length := by
                  simp [List.length_take]
                omega
              rw [hfind, ← indexWhere_eq_findRange]
              cases hidx : indexInTextItemsWherePatternPartsMatch (x :: ts) (rest.take idx0) with
              | none => rfl
              | some i =>
                dsimp only
                apply ih
                have : (rest.drop idx0).length ≤ rest.length := by
                  simp [List.length_drop]
                omega
        · simp only [hk, if_false, if_neg hk]
          rw [AntPatternItem.matchesE_eq]
          cases hm : first.matches x with
          | true => simp only [if_true]; exact ih _ _ (by omega)
          | false => simp

/-- `AntPattern.matchesParts` through the fuelled matcher. -/
def AntPattern.matchesPartsE (p : AntPattern) (textItems : List String) : Bool :=
  textItemsMatchPatternItemsE (p.patternItems.length + 1) textItems p.patternItems

theorem AntPattern.patternMatchesPartsE_eq (p : AntPattern) (textItems : List String) :
    p.matchesPartsE textItems = p.matchesParts textItems :=
  textItemsMatchPatternItemsE_eq _ _ _ (by omega)

/-- `AntPatternSet.matchesParts` through the fuelled matcher. -/
def AntPatternSet.matchesPartsE (s : AntPatternSet) (parts : List String) : Bool :=
  let result :=
    if ¬ s.includePatterns.isEmpty then
      s.includePatterns.any (fun p => p.matchesPartsE parts)
    else true
  if result ∧ ¬ s.excludePatterns.isEmpty ∧
      s.excludePatterns.any (fun p => p.matchesPartsE parts) then
    false
  else result

theorem AntPatternSet.setMatchesPartsE_eq (s : AntPatternSet) (parts : List String) :
    s.matchesPartsE parts = s.matchesParts parts := by
  unfold AntPatternSet.matchesPartsE AntPatternSet.matchesParts
    AntPatternSet.matchesAnyPatternIn
  rw [any_congr s.includePatterns (fun p _ => AntPattern.patternMatchesPartsE_eq p parts),
    any_congr s.excludePatterns (fun p _ => AntPattern.patternMatchesPartsE_eq p parts)]

/-- `AntPatternSet.matches` through the fuelled matcher. -/
def AntPatternSet.matchesE (s : AntPatternSet) (text : String) : Bool :=
  s.matchesPartsE (splitTextParts text)

theorem AntPatternSet.setMatchesE_eq (s : AntPatternSet) (text : String) :
    s.matchesE text = s.matches text :=
  AntPatternSet.setMatchesPartsE_eq s (splitTextParts text)

/-- `AntPattern.matches` through the fuelled matcher. -/
def AntPattern.matchesE (p : AntPattern) (text : String) : Bool :=
  p.matchesPartsE (splitTextParts text)

theorem AntPattern.patternMatchesE_eq (p : AntPattern) (text : String) :
    p.matchesE text = p.matches text :=
  AntPattern.patternMatchesPartsE_eq p (splitTextParts text)

end Scunch

namespace Scunch

/-! ## Claim C1: `AntPatternSet` membership -/

/-- The pattern set of the claim's example: includes `*.png, *.jpg`
together with the built-in default excludes. -/
def pngJpgSet : AntPatternSet := (antPatternSet true).include "*.png, *.jpg"

/-- C1: for every `AntPatternSet` and every path-segment list,
`matchesParts` (and `matches` on the equivalent path string) returns true
iff (the include list is empty or the segments match some include pattern)
and not (the exclude list is non-empty and the segments match some exclude
pattern); the example set with includes `*.png, *.jpg` and default
excludes matches `hugo.png` and does not match `hugo.txt`. -/
theorem scunch_c1 :
    (∀ (s : AntPatternSet) (parts : List String),
      s.matchesParts parts = true ↔
        ((s.includePatterns = [] ∨ ∃ p ∈ s.includePatterns, p.matchesParts parts = true) ∧
         ¬(s.excludePatterns ≠ [] ∧ ∃ p ∈ s.excludePatterns, p.matchesParts parts = true))) ∧
    (∀ (s : AntPatternSet) (text : String),
      s.matches text = s.matchesParts (splitTextParts text)) ∧
    pngJpgSet.matches "hugo.png" = true ∧
    pngJpgSet.matches "hugo.txt" = false := by
  refine ⟨?_, fun s text => rfl, ?_, ?_⟩
  · intro s parts
    unfold AntPatternSet.matchesParts AntPatternSet.matchesAnyPatternIn
    cases hinc : s.includePatterns.isEmpty <;>
      cases hexc : s.excludePatterns.isEmpty <;>
        cases hai : s.includePatterns.any (fun p => p.matchesParts parts) <;>
          cases hae : s.excludePatterns.any (fun p => p.matchesParts parts) <;>
            simp_all [List.any_eq_true, List.any_eq_false, List.isEmpty_iff]
  · rw [← AntPatternSet.setMatchesE_eq]
    decide
  · rw [← AntPatternSet.setMatchesE_eq]
    decide

/-! ## Claim C4: patterns without `**` -/

theorem AntPatternItem.kind_of_pattern_eq {item : AntPatternItem} {s : String}
    (h : item.pattern = s) : item.kind = AntPatternItem.kind ⟨s⟩ := by
  cases item
  simp at h
  subst h
  rfl

/-- A pattern without `**` matches elementwise — except that when the text
runs out with exactly one pattern item left that is the empty literal or a
bare `*`, the source still reports a match.  Proved by induction on the
pattern items. -/
theorem matchNoAll_iff (p : List AntPatternItem) (t : List String)
    (hnoall : ∀ item ∈ p, item.kind ≠ .all) :
    (textItemsMatchPatternItems t p = true ↔
      (List.Forall₂ (fun txt item => item.matches txt = true) t p ∨
       (p.length = t.length + 1 ∧
        List.Forall₂ (fun txt item => item.matches txt = true) t (p.take t.length) ∧
        ∃ item, p.drop t.length = [item] ∧
          (item.pattern = "" ∨ item.pattern = "*")))) := by
  induction p generalizing t with
  | nil =>
    rw [textItemsMatchPatternItems.eq_1]
    simp [List.forall₂_nil_right_iff, List.isEmpty_iff]
  | cons item rest ih =>
    have hhead : item.kind ≠ .all := hnoall item (by simp)
    cases t with
    | nil =>
      rw [textItemsMatchPatternItems.eq_2]
      cases hre : rest.isEmpty with
      | true =>
        have hrest : rest = [] := by simpa [List.isEmpty_iff] using hre
        subst hrest
        simp only [if_true]
        constructor
        · intro h
          right
          refine ⟨by simp, by simp, item, by simp, ?_⟩
          cases hk : item.kind with
          | all => exact absurd hk hhead
          | one => rw [hk] at h; left; simpa using h
          | many => rw [hk] at h; right; simpa using h
        · rintro (hf | ⟨-, -, item', hi, hp⟩)
          · exact absurd hf (by simp [List.forall₂_nil_left_iff])
          · simp at hi
            subst hi
            rcases hp with hp | hp
            · have hk := AntPatternItem.kind_of_pattern_eq hp
              have hone : AntPatternItem.kind ⟨""⟩ = .one := by decide
              rw [hk, hone]
              simpa using hp
            · have hk := AntPatternItem.kind_of_pattern_eq hp
              have hmany : AntPatternItem.kind ⟨"*"⟩ = .many := by decide
              rw [hk, hmany]
              simpa using hp
      | false =>
        have hrest : rest ≠ [] := by
          intro hc; subst hc; simp [List.isEmpty_nil] at hre
        simp only [Bool.false_eq_true, if_false]
        constructor
        · intro h; cases h
        · rintro (hf | ⟨hlen, -, -⟩)
          · exact absurd hf (by simp [List.forall₂_nil_left_iff])
          · simp at hlen
            exact absurd hlen hrest
    | cons x ts =>
      rw [textItemsMatchPatternItems.eq_3]
      rw [if_neg hhead]
      cases hm : item.matches x with
      | true =>
        simp only [if_true]
        rw [ih ts (fun it hit => hnoall it (by simp [hit]))]
        simp [List.forall₂_cons, hm, List.take_succ_cons, List.drop_succ_cons]
      | false =>
        simp only [Bool.false_eq_true, if_false]
        constructor
        · intro h; cases h
        · rintro (hf | ⟨-, hf, -⟩)
          · rw [List.forall₂_cons] at hf
            rw [hf.1] at hm
            cases hm
          · simp only [List.length_cons, List.take_succ_cons, List.forall₂_cons] at hf
            rw [hf.1] at hm
            cases hm

/-- C4 counterexample: `AntPattern("*")` matches the empty path even though
the empty path splits into zero segments while the pattern has one segment,
so "equal segment counts" fails. -/
theorem scunch_c4_counterexample :
    (antPattern "*").matches "" = true ∧
    splitTextParts "" = [] ∧
    (antPattern "*").patternItems.length = 1 := by
  refine ⟨?_, by decide, by decide⟩
  rw [← AntPattern.patternMatchesE_eq]
  decide

/-- C4 amended: for every pattern `P` without a `**` segment and every
segment list `T`, `P.matchesParts T` is true iff the segments match the
pattern items elementwise with equal counts, or — the empty-text special
case of the source — the pattern has exactly one more segment than the
text, the text matches the pattern's first segments elementwise, and the
final pattern segment is the empty literal or the bare `*` wildcard. -/
theorem scunch_c4 (P : AntPattern) (t : List String)
    (hnoall : ∀ item ∈ P.patternItems, item.kind ≠ .all) :
    (P.matchesParts t = true ↔
      (List.Forall₂ (fun txt item => item.matches txt = true) t P.patternItems ∨
       (P.patternItems.length = t.length + 1 ∧
        List.Forall₂ (fun txt item => item.matches txt = true) t
          (P.patternItems.take t.length) ∧
        ∃ item, P.patternItems.drop t.length = [item] ∧
          (item.pattern = "" ∨ item.pattern = "*")))) :=
  matchNoAll_iff P.patternItems t hnoall

/-- Witness for C4 at the pattern `a/*.txt` and the path segments
`["a", "x.txt"]`. -/
theorem scunch_c4_witness :
    (∀ item ∈ (antPattern "a/*.txt").patternItems, item.kind ≠ .all) ∧
    ((antPattern "a/*.txt").matchesParts ["a", "x.txt"] = true ↔
      (List.Forall₂ (fun txt item => item.matches txt = true) ["a", "x.txt"]
          (antPattern "a/*.txt").patternItems ∨
       ((antPattern "a/*.txt").patternItems.length = (["a", "x.txt"] : List String).length + 1 ∧
        List.Forall₂ (fun txt item => item.matches txt = true) ["a", "x.txt"]
          ((antPattern "a/*.txt").patternItems.take (["a", "x.txt"] : List String).length) ∧
        ∃ item, (antPattern "a/*.txt").patternItems.drop (["a", "x.txt"] : List String).length = [item] ∧
          (item.pattern = "" ∨ item.pattern = "*")))) :=
  ⟨by decide, scunch_c4 (antPattern "a/*.txt") ["a", "x.txt"] (by decide)⟩

/-! ## Claim C3: two `**` items and the leftmost matching span -/

theorem AntPatternItem.kind_all_iff (item : AntPatternItem) :
    item.kind = .all ↔ item.pattern = "**" := by
  unfold AntPatternItem.kind
  split
  · simp [*]
  · split <;> simp [*]

/-- `_findItemInList` finds the position of the next `**` item: when the
items before index `k` are not `All` and the item at `k` is, the search
returns `k`. -/
theorem findAllMagicIndex_eq_some (rest : List AntPatternItem) (k : Nat)
    (hk : k < rest.length)
    (hbefore : ∀ j (hj : j < k), (rest.get ⟨j, by omega⟩).kind ≠ .all)
    (hat : (rest.get ⟨k, hk⟩).kind = .all) :
    findAllMagicIndex rest = some k := by
  induction rest generalizing k with
  | nil => simp at hk
  | cons item tail ih =>
    cases k with
    | zero =>
      have : item.pattern = "**" := (AntPatternItem.kind_all_iff item).mp hat
      simp [findAllMagicIndex, this]
    | succ k' =>
      have hhead : item.kind ≠ .all := hbefore 0 (by omega)
      have hpat : ¬ item.pattern = "**" := by
        intro hc
        exact hhead ((AntPatternItem.kind_all_iff item).mpr hc)
      simp only [findAllMagicIndex, if_neg hpat]
      rw [ih k' (by simpa using hk)
        (fun j hj => hbefore (j + 1) (by omega))
        (by simpa using hat)]
      rfl

theorem find?_range_eq_some (n : Nat) (p : Nat → Bool) (i : Nat) :
    ((List.range n).find? p = some i ↔
      i < n ∧ p i = true ∧ ∀ j < i, p j = false) := by
  induction n generalizing p i with
  | zero => simp
  | succ m ih =>
    rw [List.range_succ_eq_map, List.find?]
    cases hp0 : p 0 with
    | true =>
      simp only [cond_true]
      constructor
      · intro h
        injection h with h
        subst h
        exact ⟨by omega, hp0, by omega⟩
      · rintro ⟨hi, hpi, hmin⟩
        cases i with
        | zero => rfl
        | succ i' => exact absurd hp0 (by simpa using (hmin 0 (by omega)).symm ▸ rfl)
    | false =>
      simp only [cond_false]
      rw [List.find?_map]
      cases i with
      | zero =>
        constructor
        · intro h
          cases hf : (List.range m).find? (p ∘ Nat.succ) <;> rw [hf] at h
          · cases h
          · simp [Option.map] at h
        · rintro ⟨-, hpi, -⟩
          rw [hp0] at hpi
          cases hpi
      | succ i' =>
        have hmap : ((List.range m).find? (p ∘ Nat.succ)).map Nat.succ = some (i' + 1) ↔
            (List.range m).find? (p ∘ Nat.succ) = some i' := by
          cases hf : (List.range m).find? (p ∘ Nat.succ) <;> simp [Option.map]
        rw [hmap, ih (p ∘ Nat.succ) i']
        constructor
        · rintro ⟨hi, hpi, hmin⟩
          refine ⟨by omega, hpi, ?_⟩
          intro j hj
          cases j with
          | zero => exact hp0
          | succ j' => exact hmin j' (by omega)
        · rintro ⟨hi, hpi, hmin⟩
          exact ⟨by omega, hpi, fun j hj => hmin (j + 1) (by omega)⟩

theorem find?_range_eq_none (n : Nat) (p : Nat → Bool) :
    ((List.range n).find? p = none ↔ ∀ i < n, p i = false) := by
  rw [List.find?_eq_none]
  constructor
  · intro h i hi
    have := h i (by simpa using hi)
    simpa using this
  · intro h x hx
    have := h x (by simpa using hx)
    simp [this]

/-- C3: when the pattern starts with an `All` item and another `All` occurs
later (at position `k + 1` of the whole pattern, with only non-`All` items
strictly between the two and at least one such item), the matcher takes the
leftmost span of text segments matching the items between the two `All`s:
if `i` is the least start index of a matching span, the overall result is
that of matching the text after the span against the pattern from the next
`All` onward; if no start index gives a matching span, the match fails. -/
theorem scunch_c3 (first : AntPatternItem) (rest : List AntPatternItem)
    (k : Nat) (t : List String)
    (hall : first.kind = .all)
    (hk : k < rest.length) (hkpos : 0 < k)
    (hbetween : ∀ j (hj : j < k), (rest.get ⟨j, by omega⟩).kind ≠ .all)
    (hnext : (rest.get ⟨k, hk⟩).kind = .all)
    (ht : t ≠ []) :
    ((∀ i,
        (i + k ≤ t.length ∧
         textItemsMatchPatternItems ((t.drop i).take k) (rest.take k) = true ∧
         ∀ j < i, textItemsMatchPatternItems ((t.drop j).take k) (rest.take k) = false) →
        textItemsMatchPatternItems t (first :: rest) =
          textItemsMatchPatternItems (t.drop (i + k)) (rest.drop k)) ∧
     ((∀ i, ¬(i + k ≤ t.length ∧
         textItemsMatchPatternItems ((t.drop i).take k) (rest.take k) = true)) →
      textItemsMatchPatternItems t (first :: rest) = false)) := by
  obtain ⟨x, ts, rfl⟩ : ∃ x ts, t = x :: ts := by
    cases t with
    | nil => exact absurd rfl ht
    | cons x ts => exact ⟨x, ts, rfl⟩
  have hre : rest.isEmpty = false := by
    cases rest with
    | nil => simp at hk
    | cons _ _ => rfl
  have hmag : findAllMagicIndex rest = some k :=
    findAllMagicIndex_eq_some rest k hk hbetween hnext
  have hkl : (rest.take k).length = k := by
    simp [List.length_take]
    omega
  have hbase :
      textItemsMatchPatternItems (x :: ts) (first :: rest) =
        match indexInTextItemsWherePatternPartsMatch (x :: ts) (rest.take k) with
        | some i =>
          textItemsMatchPatternItems ((x :: ts).drop (i + (rest.take k).length))
            (rest.drop k)
        | none => false := by
    rw [textItemsMatchPatternItems.eq_3]
    simp only [hall, if_true, hre, Bool.false_eq_true, if_false, hmag]
  constructor
  · rintro i ⟨hile, hwin, hmin⟩
    have hsome : indexInTextItemsWherePatternPartsMatch (x :: ts) (rest.take k) = some i := by
      rw [indexWhere_eq_findRange, hkl]
      rw [find?_range_eq_some]
      refine ⟨by simp at hile ⊢; omega, hwin, ?_⟩
      intro j hj
      exact hmin j hj
    rw [hbase, hsome, hkl]
  · intro hnone
    have hn : indexInTextItemsWherePatternPartsMatch (x :: ts) (rest.take k) = none := by
      rw [indexWhere_eq_findRange, hkl]
      rw [find?_range_eq_none]
      intro i hi
      have := hnone i
      rcases Bool.eq_false_or_eq_true
        (textItemsMatchPatternItems (((x :: ts).drop i).take k) (rest.take k)) with htrue | hfalse
      · exact absurd ⟨by simp at hi ⊢; omega, htrue⟩ this
      · exact hfalse
    rw [hbase, hn]

/-- Witness for C3: pattern `**/b/**` against the path segments
`["a", "b", "c"]`; the leftmost matching span for the middle item `b`
starts at index 1. -/
theorem scunch_c3_witness :
    ((⟨"**"⟩ : AntPatternItem).kind = .all ∧
     (1 : Nat) < ([⟨"b"⟩, ⟨"**"⟩] : List AntPatternItem).length ∧
     (["a", "b", "c"] : List String) ≠ []) ∧
    textItemsMatchPatternItems ["a", "b", "c"]
        [⟨"**"⟩, ⟨"b"⟩, ⟨"**"⟩] =
      textItemsMatchPatternItems ((["a", "b", "c"] : List String).drop (1 + 1))
        (([⟨"b"⟩, ⟨"**"⟩] : List AntPatternItem).drop 1) := by
  refine ⟨⟨by decide, by decide, by decide⟩, ?_⟩
  exact (scunch_c3 ⟨"**"⟩ [⟨"b"⟩, ⟨"**"⟩] 1 ["a", "b", "c"]
    (by decide) (by decide) (by decide)
    (by intro j hj
        have hj0 : j = 0 := by omega
        subst hj0
        show (AntPatternItem.mk "b").kind ≠ .all
        decide)
    (by decide) (by decide)).1 1
    (by refine ⟨by decide, ?_, ?_⟩
        · rw [← textItemsMatchPatternItemsE_eq 2 _ _ (by decide)]
          decide
        · intro j hj
          interval_cases j
          rw [← textItemsMatchPatternItemsE_eq 2 _ _ (by decide)]
          decide)

/-! ## Claim C2: a final `**` and the clamping suffix slice -/

/-- C2: evaluation of the matcher at the failing input.  For the pattern
`**/a/b` (an `All` item followed by two further non-`All` items) and the
single-segment path `b`, the claim requires no match because the text has
fewer segments than the remaining pattern; the code's clamping slices
(`textItems[-2:]` on a one-element list, then `patternItems[-1:]`) make it
match. -/
theorem scunch_c2_eval :
    (antPattern "**/a/b").patternItems.map AntPatternItem.pattern = ["**", "a", "b"] ∧
    splitTextParts "b" = ["b"] ∧
    (antPattern "**/a/b").matches "b" = true := by
  refine ⟨by decide, by decide, ?_⟩
  rw [← AntPattern.patternMatchesE_eq]
  decide

/-! ## `TextOptions` (scunch.py) and claim C9 -/

/-- `TextOptions`: how punched text files are converted.  `newLine` is one
of `TextOptions.Dos` (`"\r\n"`), `TextOptions.Unix` (`"\n"`) or
`TextOptions.Native` (`os.linesep`, which is `"\n"` on the modelled POSIX
system); `tabSize = 0` is `TextOptions.PreserveTabs`. -/
structure TextOptions where
  newLine : String
  tabSize : Nat
  stripTrailing : Bool
deriving Repr

/-- `self._trailingCharactersToStrip` as set in `TextOptions.__init__`:
`'\n\r'`, extended by `"\t "` when `stripTrailing` is requested. -/
def TextOptions.trailingCharactersToStrip (o : TextOptions) : List Char :=
  if o.stripTrailing then ['\n', '\r', '\t', ' '] else ['\n', '\r']

/-- Python `str.expandtabs(tabSize)`: a tab fills up to the next multiple
of `tabSize` columns; `'\n'` and `'\r'` reset the column counter. -/
def pyExpandTabsAux (tabSize : Nat) : List Char → Nat → List Char
  | [], _ => []
  | c :: rest, col =>
    if c = '\t' then
      if 0 < tabSize then
        let incr := tabSize - col % tabSize
        List.replicate incr ' ' ++ pyExpandTabsAux tabSize rest (col + incr)
      else
        pyExpandTabsAux tabSize rest col
    else if c = '\n' ∨ c = '\r' then
      c :: pyExpandTabsAux tabSize rest 0
    else
      c :: pyExpandTabsAux tabSize rest (col + 1)

def pyExpandTabs (tabSize : Nat) (s : List Char) : List Char :=
  pyExpandTabsAux tabSize s 0

/-- `TextOptions.convertedLine`: strip the configured trailing characters,
expand tabs unless `tabSize` is zero, append the configured newline. -/
def TextOptions.convertedLine (o : TextOptions) (line : String) : String :=
  let result := pyRstrip o.trailingCharactersToStrip line.toList
  let result := if o.tabSize ≠ 0 then pyExpandTabs o.tabSize result else result
  String.mk (result ++ o.newLine.toList)

theorem dropWhile_head?_false {α : Type} (p : α → Bool) (l : List α) :
    ∀ x, (l.dropWhile p).head? = some x → p x = false := by
  induction l with
  | nil => simp
  | cons c cs ih =>
    intro x hx
    rw [List.dropWhile] at hx
    cases hp : p c with
    | true => rw [hp] at hx; exact ih x hx
    | false =>
      rw [hp] at hx
      simp at hx
      rw [← hx]
      exact hp

/-- `pyRstrip` splits the input into the kept part and a stripped tail. -/
theorem pyRstrip_decomposition (chars s : List Char) :
    s = pyRstrip chars s ++ (s.reverse.takeWhile (fun c => charIn c chars)).reverse ∧
    (∀ c ∈ (s.reverse.takeWhile (fun c => charIn c chars)).reverse, charIn c chars = true) ∧
    (∀ c, (pyRstrip chars s).getLast? = some c → charIn c chars = false) := by
  refine ⟨?_, ?_, ?_⟩
  · unfold pyRstrip
    conv_lhs =>
      rw [← List.reverse_reverse s,
        ← List.takeWhile_append_dropWhile (p := fun c => charIn c chars) (l := s.reverse)]
    rw [List.reverse_append]
  · intro c hc
    rw [List.mem_reverse] at hc
    exact List.mem_takeWhile_imp (l := s.reverse) hc
  · intro c hc
    unfold pyRstrip at hc
    rw [List.getLast?_reverse] at hc
    exact dropWhile_head?_false _ _ c hc

theorem pyExpandTabsAux_no_tab (tabSize : Nat) (h : 0 < tabSize) :
    ∀ (s : List Char) (col : Nat), '\t' ∉ pyExpandTabsAux tabSize s col := by
  intro s
  induction s with
  | nil => intro col; simp [pyExpandTabsAux]
  | cons c rest ih =>
    intro col
    unfold pyExpandTabsAux
    by_cases hc : c = '\t'
    · simp only [hc, if_true, h, if_pos]
      intro hmem
      rcases List.mem_append.mp hmem with hmem | hmem
      · exact absurd (List.eq_of_mem_replicate hmem) (by decide)
      · exact ih _ hmem
    · rw [if_neg hc]
      by_cases hnl : c = '\n' ∨ c = '\r'
      · rw [if_pos hnl]
        intro hmem
        rcases List.mem_cons.mp hmem with hmem | hmem
        · exact hc hmem.symm
        · exact ih _ hmem
      · rw [if_neg hnl]
        intro hmem
        rcases List.mem_cons.mp hmem with hmem | hmem
        · exact hc hmem.symm
        · exact ih _ hmem

theorem pyExpandTabsAux_filter (tabSize : Nat) (h : 0 < tabSize) :
    ∀ (s : List Char) (col : Nat),
      (pyExpandTabsAux tabSize s col).filter (fun c => c ≠ ' ') =
        s.filter (fun c => ¬(c = ' ' ∨ c = '\t')) := by
  intro s
  induction s with
  | nil => intro col; simp [pyExpandTabsAux]
  | cons c rest ih =>
    intro col
    unfold pyExpandTabsAux
    by_cases hc : c = '\t'
    · simp only [hc, if_true, h, if_pos]
      rw [List.filter_append, List.filter_cons]
      have hrep : (List.replicate (tabSize - col % tabSize) ' ').filter
          (fun c => c ≠ ' ') = [] := by
        apply List.filter_eq_nil.mpr
        intro a ha
        have := List.eq_of_mem_replicate ha
        simp [this]
      rw [hrep, ih]
      simp
    · rw [if_neg hc]
      by_cases hnl : c = '\n' ∨ c = '\r'
      · rw [if_pos hnl]
        have hcsp : ¬ c = ' ' := by
          rcases hnl with hnl | hnl <;> simp [hnl]
        have hih := ih 0
        simp at hih
        simp [List.filter_cons, hcsp, hc, hih]
      · rw [if_neg hnl]
        have hih := ih (col + 1)
        simp at hih
        by_cases hsp : c = ' '
        · simp [List.filter_cons, hsp, hih]
        · simp [List.filter_cons, hsp, hc, hih]

/-- C9: `convertedLine` splits the line into a kept core and a stripped
trailing run of newline characters (plus tab and blank when
`stripTrailing`), expands tabs of the core when `tabSize` is non-zero, and
appends the configured newline; the expansion removes every tab and keeps
all characters other than tabs and blanks. -/
theorem scunch_c9 :
    (∀ (o : TextOptions) (line : String),
      ∃ core trail : List Char,
        line.toList = core ++ trail ∧
        (∀ c ∈ trail,
          c = '\n' ∨ c = '\r' ∨
            (o.stripTrailing = true ∧ (c = '\t' ∨ c = ' '))) ∧
        (∀ c, core.getLast? = some c →
          ¬(c = '\n' ∨ c = '\r' ∨
            (o.stripTrailing = true ∧ (c = '\t' ∨ c = ' ')))) ∧
        (o.convertedLine line).toList =
          (if o.tabSize ≠ 0 then pyExpandTabs o.tabSize core else core) ++
            o.newLine.toList ∧
        (0 < o.tabSize →
          '\t' ∉ pyExpandTabs o.tabSize core ∧
          (pyExpandTabs o.tabSize core).filter (fun c => c ≠ ' ') =
            core.filter (fun c => ¬(c = ' ' ∨ c = '\t')))) ∧
    (TextOptions.mk "\n" 4 true).convertedLine "a\tb \n" = "a   b\n" := by
  constructor
  · intro o line
    obtain ⟨hdec, htrail, hlast⟩ :=
      pyRstrip_decomposition (o.trailingCharactersToStrip) line.toList
    have hmem : ∀ c, charIn c o.trailingCharactersToStrip = true ↔
        (c = '\n' ∨ c = '\r' ∨
          (o.stripTrailing = true ∧ (c = '\t' ∨ c = ' '))) := by
      intro c
      unfold TextOptions.trailingCharactersToStrip
      cases hst : o.stripTrailing <;> simp [charIn] <;> tauto
    refine ⟨pyRstrip o.trailingCharactersToStrip line.toList,
      (line.toList.reverse.takeWhile
        (fun c => charIn c o.trailingCharactersToStrip)).reverse,
      hdec, ?_, ?_, ?_, ?_⟩
    · intro c hc
      exact (hmem c).mp (htrail c hc)
    · intro c hc
      rw [← hmem c]
      simp [hlast c hc]
    · unfold TextOptions.convertedLine
      simp
    · intro htab
      exact ⟨pyExpandTabsAux_no_tab o.tabSize htab _ 0,
        pyExpandTabsAux_filter o.tabSize htab _ 0⟩
  · decide

/-! ## Claim C10: splitting a pattern-list text -/

theorem pySplitOn_ne_nil (sep : Char) (s : List Char) : pySplitOn sep s ≠ [] := by
  cases s with
  | nil => simp [pySplitOn]
  | cons c rest =>
    unfold pySplitOn
    by_cases hc : c = sep
    · simp [hc]
    · simp only [if_neg hc]
      cases pySplitOn sep rest <;> simp

/-- `s.split(sep)` produces one more part than there are separators. -/
theorem pySplitOn_length (sep : Char) (s : List Char) :
    (pySplitOn sep s).length = s.count sep + 1 := by
  induction s with
  | nil => simp [pySplitOn]
  | cons c rest ih =>
    unfold pySplitOn
    by_cases hc : c = sep
    · simp [hc, List.count_cons, ih]
    · simp only [if_neg hc]
      have hne := pySplitOn_ne_nil sep rest
      cases hsp : pySplitOn sep rest with
      | nil => exact absurd hsp hne
      | cons t ts =>
        have : rest.count sep + 1 = (t :: ts).length := by rw [← ih, hsp]
        simp only [List.length_cons] at this ⊢
        have hcount : (c :: rest).count sep = rest.count sep := by
          simp [List.count_cons, hc]
        omega

/-- C10: a pattern-list text containing a comma is split only at commas —
one pattern per comma-separated part, each part stripped, so a part with
internal blanks stays one pattern — and only a text without commas is
split on whitespace. -/
theorem scunch_c10 :
    (∀ text : String, text.toList.contains ',' = true →
      (createAntPatterns text =
        (pySplitOn ',' text.toList).map (fun part => antPattern (String.mk (pyStrip part))) ∧
       (createAntPatterns text).length = text.toList.count ',' + 1)) ∧
    (∀ text : String, text.toList.contains ',' = false →
      createAntPatterns text =
        (pySplitWhitespace text.toList).map (fun part => antPattern (String.mk part))) ∧
    createAntPatterns "*.png, a b" = [antPattern "*.png", antPattern "a b"] ∧
    createAntPatterns "a b" = [antPattern "a", antPattern "b"] := by
  refine ⟨?_, ?_, by decide, by decide⟩
  · intro text hcomma
    unfold createAntPatterns
    dsimp only
    rw [if_pos hcomma]
    constructor
    · simp [List.map_map]
    · simp only [List.length_map]
      exact pySplitOn_length ',' text.toList
  · intro text hcomma
    unfold createAntPatterns
    dsimp only
    rw [if_neg (by rw [hcomma]; simp)]

/-! ## `FileSystemEntry` and `_sortedFileSystemEntries`

`FileSystemEntry.__eq__`/`__hash__` use only `parts`, so Python sets of
entries deduplicate by `parts`; such sets are modelled as lists without
duplicate `parts`, iterated in insertion order.  `size` and `timeModified`
play no role in any claim and are omitted from the record. -/

/-- `FileSystemEntry.File` / `FileSystemEntry.Folder`. -/
inductive EntryKind where
  | file
  | folder
deriving DecidableEq, Repr

/-- One file-system entry: its kind and its path segments relative to the
base folder. -/
structure FileSystemEntry where
  kind : EntryKind
  parts : List String
deriving DecidableEq, Repr

/-- Python `==` on entries compares `parts` only. -/
def entryBeq (a b : FileSystemEntry) : Bool :=
  a.parts == b.parts

/-- `FileSystemEntry.name`: the last part, or `''` without parts. -/
def FileSystemEntry.name (e : FileSystemEntry) : String :=
  match e.parts.getLast? with
  | some n => n
  | none => ""

/-- `part.startswith('/')`, written over the character list so that the
kernel can evaluate it. -/
def pyStartsWithSep (s : String) : Bool :=
  match s.toList with
  | '/' :: _ => true
  | _ => false

/-- `acc.endswith('/')`, written over the character list. -/
def pyEndsWithSep (s : String) : Bool :=
  match s.toList.getLast? with
  | some '/' => true
  | _ => false

/-- `resolvedPathParts` (`os.path.join` folded over the parts, POSIX). -/
def resolvedPathParts (parts : List String) : String :=
  parts.foldl
    (fun acc part =>
      if pyStartsWithSep part then part
      else if acc = "" ∨ pyEndsWithSep acc then acc ++ part
      else acc ++ "/" ++ part) ""

/-- `FileSystemEntry.relativePath`. -/
def FileSystemEntry.relativePath (e : FileSystemEntry) : String :=
  resolvedPathParts e.parts

/-- Adding an entry to a Python set of entries: kept entries win, an entry
with the same `parts` is not added again. -/
def addEntryToSet (l : List FileSystemEntry) (e : FileSystemEntry) : List FileSystemEntry :=
  if l.any (fun x => entryBeq x e) then l else l ++ [e]

/-- The sort key of `comparedFileSystemEntries`: folders sort before files
(`-cmp(kind)` on the strings `'file'`/`'folder'`), then `parts`
lexicographically. -/
def entryKindRank : EntryKind → Nat
  | .folder => 0
  | .file => 1

/-- Lexicographic order on `parts` (Python tuple comparison). -/
def partsLt : List String → List String → Bool
  | [], [] => false
  | [], _ :: _ => true
  | _ :: _, [] => false
  | a :: as, b :: bs =>
    if a < b then true
    else if b < a then false
    else partsLt as bs

def entryLE (a b : FileSystemEntry) : Bool :=
  if entryKindRank a.kind < entryKindRank b.kind then true
  else if entryKindRank b.kind < entryKindRank a.kind then false
  else partsLt a.parts b.parts || (a.parts == b.parts)

def insertEntry (e : FileSystemEntry) : List FileSystemEntry → List FileSystemEntry
  | [] => [e]
  | x :: xs => if entryLE e x then e :: x :: xs else x :: insertEntry e xs

def insertionSortEntries : List FileSystemEntry → List FileSystemEntry
  | [] => []
  | x :: xs => insertEntry x (insertionSortEntries xs)

/-- `_sortedFileSystemEntries`: deduplicate through a Python set (equality
by `parts`), then sort folders before files and by `parts`.  The
comparator is total and, after deduplication, strict, so any sorting
algorithm yields Python's result; insertion sort is used here. -/
def sortedFileSystemEntries (entriesToSort : List FileSystemEntry) : List FileSystemEntry :=
  insertionSortEntries (entriesToSort.foldl addEntryToSet [])

/-! ## `difflib.SequenceMatcher(None, a, b)`

The punching engine aligns the two sorted entry lists with
`difflib.SequenceMatcher` from the Python 2.7 standard library and walks
`get_opcodes()`.  The matcher is embedded below for entry lists: no junk
predicate (`isjunk=None`), with the `autojunk` popularity rule of 2.7,
element equality being `FileSystemEntry.__eq__` (`parts`). -/

def dfltEntry : FileSystemEntry := ⟨.file, []⟩

/-- The indices at which `x` occurs in `b` (ascending), as collected by
`__chain_b` into `b2j`. -/
def indicesOf (b : List FileSystemEntry) (x : FileSystemEntry) : List Nat :=
  (List.range b.length).filter (fun j => entryBeq (b.getD j dfltEntry) x)

/-- `b2j` lookup with the autojunk rule: for `len(b) >= 200`, elements
occurring more than `len(b) // 100 + 1` times are dropped. -/
def b2jOf (b : List FileSystemEntry) (x : FileSystemEntry) : List Nat :=
  let idxs := indicesOf b x
  if 200 ≤ b.length ∧ b.length / 100 + 1 < idxs.length then [] else idxs

/-- The inner loop of `find_longest_match` over `b2j.get(a[i])`: `continue`
below `blo`, `break` at `bhi`, otherwise extend the diagonal run and track
the best match.  `j2lenOld` is the previous row (`j2len.get(j-1, 0)`),
`newj2len` the row being built. -/
def flmInner (i blo bhi : Nat) (j2lenOld : Nat → Nat) :
    List Nat → ((Nat × Nat × Nat) × (Nat → Nat)) → ((Nat × Nat × Nat) × (Nat → Nat))
  | [], st => st
  | j :: rest, (best, newj2len) =>
    if j < blo then flmInner i blo bhi j2lenOld rest (best, newj2len)
    else if bhi ≤ j then (best, newj2len)
    else
      let k := (if j = 0 then 0 else j2lenOld (j - 1)) + 1
      let newj2len' := fun j' => if j' = j then k else newj2len j'
      let best' := if best.2.2 < k then (i + 1 - k, j + 1 - k, k) else best
      flmInner i blo bhi j2lenOld rest (best', newj2len')

/-- The outer loop of `find_longest_match` over `i in range(alo, ahi)`. -/
def flmOuter (a b : List FileSystemEntry) (blo bhi : Nat) :
    List Nat → (Nat × Nat × Nat) → (Nat → Nat) → (Nat × Nat × Nat)
  | [], best, _ => best
  | i :: irest, best, j2len =>
    let js := b2jOf b (a.getD i dfltEntry)
    let (best', newj2len) := flmInner i blo bhi j2len js (best, fun _ => 0)
    flmOuter a b blo bhi irest best' newj2len

/-- The first extension loop of `find_longest_match`: grow the match to the
left over equal (non-junk; there is no junk here) elements.  Called with
fuel `besti`, enough for every possible extension. -/
def extendLeftAux (a b : List FileSystemEntry) (alo blo : Nat) :
    Nat → Nat → Nat → Nat → (Nat × Nat × Nat)
  | 0, besti, bestj, bestsize => (besti, bestj, bestsize)
  | fuel + 1, besti, bestj, bestsize =>
    if alo < besti ∧ blo < bestj ∧
        entryBeq (a.getD (besti - 1) dfltEntry) (b.getD (bestj - 1) dfltEntry) then
      extendLeftAux a b alo blo fuel (besti - 1) (bestj - 1) (bestsize + 1)
    else (besti, bestj, bestsize)

/-- The second extension loop: grow the match to the right.  Called with
fuel `ahi`. -/
def extendRightAux (a b : List FileSystemEntry) (ahi bhi : Nat) :
    Nat → Nat → Nat → Nat → Nat
  | 0, _, _, bestsize => bestsize
  | fuel + 1, besti, bestj, bestsize =>
    if besti + bestsize < ahi ∧ bestj + bestsize < bhi ∧
        entryBeq (a.getD (besti + bestsize) dfltEntry)
          (b.getD (bestj + bestsize) dfltEntry) then
      extendRightAux a b ahi bhi fuel besti bestj (bestsize + 1)
    else bestsize

/-- `find_longest_match(alo, ahi, blo, bhi)`.  The junk-extension loops of
the source require a junk element and never fire with `isjunk=None`. -/
def findLongestMatch (a b : List FileSystemEntry) (alo ahi blo bhi : Nat) :
    Nat × Nat × Nat :=
  let dp := flmOuter a b blo bhi (List.range' alo (ahi - alo)) (alo, blo, 0) (fun _ => 0)
  let left := extendLeftAux a b alo blo dp.1 dp.1 dp.2.1 dp.2.2
  let size := extendRightAux a b ahi bhi ahi left.1 left.2.1 left.2.2
  (left.1, left.2.1, size)

/-- The queue loop of `get_matching_blocks`.  The Python queue is a stack
(`pop()` takes the last appended element); it is modelled head-first, so a
push is a `cons` and the element pushed second sits on top.  Each round
either consumes at least one matched element or discards one queue entry,
so fuel `la + lb + 1` (as supplied by `getMatchingBlocks`) never runs
out. -/
def gmbLoop (a b : List FileSystemEntry) :
    Nat → List (Nat × Nat × Nat × Nat) → List (Nat × Nat × Nat) → List (Nat × Nat × Nat)
  | 0, _, acc => acc
  | _ + 1, [], acc => acc
  | fuel + 1, (alo, ahi, blo, bhi) :: queue, acc =>
    let m := findLongestMatch a b alo ahi blo bhi
    if 0 < m.2.2 then
      let queue1 := if alo < m.1 ∧ blo < m.2.1 then (alo, m.1, blo, m.2.1) :: queue else queue
      let queue2 :=
        if m.1 + m.2.2 < ahi ∧ m.2.1 + m.2.2 < bhi then
          (m.1 + m.2.2, ahi, m.2.1 + m.2.2, bhi) :: queue1
        else queue1
      gmbLoop a b fuel queue2 (m :: acc)
    else gmbLoop a b fuel queue acc

def tripleLE (x y : Nat × Nat × Nat) : Bool :=
  if x.1 < y.1 then true
  else if y.1 < x.1 then false
  else if x.2.1 < y.2.1 then true
  else if y.2.1 < x.2.1 then false
  else x.2.2 ≤ y.2.2

def insertTriple (e : Nat × Nat × Nat) : List (Nat × Nat × Nat) → List (Nat × Nat × Nat)
  | [] => [e]
  | x :: xs => if tripleLE e x then e :: x :: xs else x :: insertTriple e xs

def insertionSortTriples : List (Nat × Nat × Nat) → List (Nat × Nat × Nat)
  | [] => []
  | x :: xs => insertTriple x (insertionSortTriples xs)

/-- The adjacency merge at the end of `get_matching_blocks` (`i1 j1 k1`
accumulator over the sorted blocks, dropping empty accumulated blocks). -/
def mergeBlocks : List (Nat × Nat × Nat) → (Nat × Nat × Nat) → List (Nat × Nat × Nat)
  | [], acc => if 0 < acc.2.2 then [acc] else []
  | (i2, j2, k2) :: rest, (i1, j1, k1) =>
    if i1 + k1 = i2 ∧ j1 + k1 = j2 then
      mergeBlocks rest (i1, j1, k1 + k2)
    else
      (if 0 < k1 then [(i1, j1, k1)] else []) ++ mergeBlocks rest (i2, j2, k2)

/-- `get_matching_blocks()`: matched blocks sorted, adjacent blocks merged,
then the `(la, lb, 0)` sentinel. -/
def getMatchingBlocks (a b : List FileSystemEntry) : List (Nat × Nat × Nat) :=
  let blocks := gmbLoop a b (a.length + b.length + 1) [(0, a.length, 0, b.length)] []
  mergeBlocks (insertionSortTriples blocks) (0, 0, 0) ++ [(a.length, b.length, 0)]

inductive OpTag where
  | replace
  | delete
  | insert
  | equal
deriving DecidableEq, Repr

/-- `get_opcodes()`: walk the matching blocks, emitting a
replace/delete/insert opcode for the gap before each block and an equal
opcode for the block itself. -/
def getOpcodesLoop : Nat → Nat → List (Nat × Nat × Nat) → List (OpTag × Nat × Nat × Nat × Nat)
  | _, _, [] => []
  | i, j, (ai, bj, size) :: rest =>
    (if i < ai ∧ j < bj then [(OpTag.replace, i, ai, j, bj)]
     else if i < ai then [(OpTag.delete, i, ai, j, bj)]
     else if j < bj then [(OpTag.insert, i, ai, j, bj)]
     else []) ++
    (if 0 < size then [(OpTag.equal, ai, ai + size, bj, bj + size)] else []) ++
    getOpcodesLoop (ai + size) (bj + size) rest

def getOpcodes (a b : List FileSystemEntry) : List (OpTag × Nat × Nat × Nat × Nat) :=
  getOpcodesLoop 0 0 (getMatchingBlocks a b)

/-! ## `ScmPuncher`: scheduling -/

/-- The transient plan state of one `punch()` call: the `_entriesToAdd`,
`_entriesToTransfer` and `_entriesToRemove` Python sets (modelled as
insertion-ordered lists deduplicated by `parts`) and
`_lastRemovedFolderEntry`. -/
structure PunchSchedule where
  entriesToAdd : List FileSystemEntry
  entriesToTransfer : List FileSystemEntry
  entriesToRemove : List FileSystemEntry
  lastRemovedFolderEntry : Option FileSystemEntry
deriving DecidableEq, Repr

/-- `ScmPuncher._isInLastRemovedFolder`: the last removed folder's parts
are a prefix of the entry's parts
(`lastRemovedFolderParts == entryToCheck.parts[:len(lastRemovedFolderParts)]`). -/
def isInLastRemovedFolder (st : PunchSchedule) (entryToCheck : FileSystemEntry) : Bool :=
  match st.lastRemovedFolderEntry with
  | none => false
  | some f => f.parts == entryToCheck.parts.take f.parts.length

/-- `ScmPuncher._setLastRemovedFolder`. -/
def setLastRemovedFolder (st : PunchSchedule) (lastRemovedEntry : FileSystemEntry) :
    PunchSchedule :=
  if lastRemovedEntry.kind = .folder then
    { st with lastRemovedFolderEntry := some lastRemovedEntry }
  else
    { st with lastRemovedFolderEntry := none }

/-- Loop body of `ScmPuncher._add`. -/
def scheduleAdd1 (st : PunchSchedule) (entryToAdd : FileSystemEntry) : PunchSchedule :=
  if isInLastRemovedFolder st entryToAdd then st
  else { st with entriesToAdd := addEntryToSet st.entriesToAdd entryToAdd }

def scheduleAdd (st : PunchSchedule) (entries : List FileSystemEntry) : PunchSchedule :=
  entries.foldl scheduleAdd1 st

/-- Loop body of `ScmPuncher._remove`: the removed entry also becomes the
most recently removed folder (or clears it for a file). -/
def scheduleRemove1 (st : PunchSchedule) (entryToRemove : FileSystemEntry) : PunchSchedule :=
  if isInLastRemovedFolder st entryToRemove then st
  else
    let st := setLastRemovedFolder st entryToRemove
    { st with entriesToRemove := addEntryToSet st.entriesToRemove entryToRemove }

def scheduleRemove (st : PunchSchedule) (entries : List FileSystemEntry) : PunchSchedule :=
  entries.foldl scheduleRemove1 st

/-- Loop body of `ScmPuncher._transfer`. -/
def scheduleTransfer1 (st : PunchSchedule) (entryToTransfer : FileSystemEntry) : PunchSchedule :=
  if isInLastRemovedFolder st entryToTransfer then st
  else { st with entriesToTransfer := addEntryToSet st.entriesToTransfer entryToTransfer }

def scheduleTransfer (st : PunchSchedule) (entries : List FileSystemEntry) : PunchSchedule :=
  entries.foldl scheduleTransfer1 st

/-- Python `l[m:n]` for `0 ≤ m ≤ n ≤ len(l)`. -/
def pySlice {α : Type} (l : List α) (m n : Nat) : List α :=
  (l.take n).drop m

/-- One opcode of the edit-script walk in `_setAddedModifiedRemovedItems`.
For a `replace` run, Python iterates the set union of both slices; the
unspecified set order is modelled as insertion order, work slice first. -/
def applyOpcode (w e : List FileSystemEntry) (st : PunchSchedule)
    (op : OpTag × Nat × Nat × Nat × Nat) : PunchSchedule :=
  match op with
  | (.insert, _, _, j1, j2) => scheduleAdd st (pySlice e j1 j2)
  | (.equal, _, _, j1, j2) => scheduleTransfer st (pySlice e j1 j2)
  | (.delete, i1, i2, _, _) => scheduleRemove st (pySlice w i1 i2)
  | (.replace, i1, i2, j1, j2) =>
    let workSlice := pySlice w i1 i2
    let extSlice := pySlice e j1 j2
    let allEntries := (workSlice ++ extSlice).foldl addEntryToSet []
    allEntries.foldl
      (fun st entry =>
        if extSlice.any (fun x => entryBeq x entry) then
          if workSlice.any (fun x => entryBeq x entry) then
            scheduleTransfer st [entry]
          else scheduleAdd st [entry]
        else scheduleRemove st [entry]) st

/-- `ScmPuncher._setAddedModifiedRemovedItems` from the two sorted entry
lists (work, renamed external): walk the matcher's opcodes. -/
def setAddedModifiedRemovedItems (w e : List FileSystemEntry) : PunchSchedule :=
  (getOpcodes w e).foldl (applyOpcode w e) ⟨[], [], [], none⟩

/-! ## `ScmPuncher`: move detection -/

/-- `ScmPuncher._createNameAndKindToListOfFolderItemsMap`: group entries by
`(name, kind)`, dict and group lists in insertion order. -/
def groupByNameKind (entries : List FileSystemEntry) :
    List ((String × EntryKind) × List FileSystemEntry) :=
  entries.foldl
    (fun acc e =>
      let key := (e.name, e.kind)
      if acc.any (fun g => g.1 == key) then
        acc.map (fun g => if g.1 == key then (g.1, g.2 ++ [e]) else g)
      else acc ++ [(key, [e])]) []

def lookupGroup (m : List ((String × EntryKind) × List FileSystemEntry))
    (key : String × EntryKind) : Option (List FileSystemEntry) :=
  (m.find? (fun g => g.1 == key)).map (fun g => g.2)

/-- Python `set.remove` on an entry set: drop the first (unique) element
with the same `parts`. -/
def removeFirstByParts (l : List FileSystemEntry) (e : FileSystemEntry) :
    List FileSystemEntry :=
  match l with
  | [] => []
  | x :: xs => if entryBeq x e then xs else x :: removeFirstByParts xs e

/-- The per-key body of `_setCopiedAndMovedEntries`: a key found in both
groups whose kind is `File` moves the first removed and first added entry
of that key. -/
def moveStep (removedNameMap : List ((String × EntryKind) × List FileSystemEntry))
    (acc : PunchSchedule × List (FileSystemEntry × FileSystemEntry))
    (g : (String × EntryKind) × List FileSystemEntry) :
    PunchSchedule × List (FileSystemEntry × FileSystemEntry) :=
  match lookupGroup removedNameMap g.1 with
  | some (removedSourceEntry :: _) =>
    if g.1.2 = EntryKind.file then
      let addedTargetEntry := g.2.headD dfltEntry
      ({ acc.1 with
          entriesToRemove := removeFirstByParts acc.1.entriesToRemove removedSourceEntry,
          entriesToAdd := removeFirstByParts acc.1.entriesToAdd addedTargetEntry },
        acc.2 ++ [(removedSourceEntry, addedTargetEntry)])
    else acc
  | _ => acc

/-- `ScmPuncher._setCopiedAndMovedEntries`: returns the updated schedule
and `_entriesToMove`. -/
def setCopiedAndMovedEntries (st : PunchSchedule) :
    PunchSchedule × List (FileSystemEntry × FileSystemEntry) :=
  let removedNameMap := groupByNameKind st.entriesToRemove
  let addedNameMap := groupByNameKind st.entriesToAdd
  addedNameMap.foldl (moveStep removedNameMap) (st, [])

/-! ## `ScmPuncher.punch`: the planning pipeline -/

/-- `ScmPuncher.MoveName` / `MoveNone`. -/
inductive MoveMode where
  | name
  | none
deriving DecidableEq, Repr

/-- The precondition errors `punch` can raise while planning. -/
inductive ScmErrorModel where
  | workOnlyViolation (relativePath : String)
  | nameTransformation (existingToTransformedPathMap : List (String × String))
  | nameClash (existingPath renamedPath : String)
deriving DecidableEq, Repr

/-- `ScmPuncher._createTransformedFileSystemEntry`: apply the optional name
transformation to the parts, keeping everything else. -/
def transformedEntry (t : Option (FileSystemEntry → List String))
    (e : FileSystemEntry) : FileSystemEntry :=
  match t with
  | some f => { e with parts := f e }
  | none => e

/-- `LowerNameTransformation` (ASCII model of `str.lower`). -/
def LowerNameTransformation : FileSystemEntry → List String :=
  fun e => e.parts.map (fun p => String.mk (pyLower p.toList))

/-- `workEntriesNotComplyingWithNameTransformationMap`: existing work
entries whose relative path changes under the transformation, in work-list
order. -/
def nonComplyingMap (t : FileSystemEntry → List String)
    (workEntries : List FileSystemEntry) : List (String × String) :=
  workEntries.foldl
    (fun m workEntry =>
      if workEntry.relativePath ≠ (transformedEntry (some t) workEntry).relativePath then
        m ++ [(workEntry.relativePath, (transformedEntry (some t) workEntry).relativePath)]
      else m) []

/-- The name-clash scan of `_setAddedModifiedRemovedItems`: walking the
sorted external entries, the first renamed entry equal (by `parts`) to an
already renamed one raises `ScmNameClashError`. -/
def firstClash : List (FileSystemEntry × FileSystemEntry) →
    List (FileSystemEntry × FileSystemEntry) → Option (String × String)
  | [], _ => Option.none
  | (renamed, original) :: rest, seen =>
    match seen.find? (fun p => entryBeq p.1 renamed) with
    | some p => some (p.2.relativePath, original.relativePath)
    | Option.none => firstClash rest ((renamed, original) :: seen)

/-- The plan one `punch()` call computes. -/
structure PunchResult where
  entriesToAdd : List FileSystemEntry
  entriesToTransfer : List FileSystemEntry
  entriesToRemove : List FileSystemEntry
  entriesToMove : List (FileSystemEntry × FileSystemEntry)
deriving DecidableEq, Repr

/-- The planning part of `ScmPuncher.punch`, from the scanned entry lists
(the directory walks themselves are I/O and outside the model;
`workOnlyMatches` stands for `workFilesToPreservePatternSet.matchesParts`).
Mirrors the source's order: collect and sort external entries, check them
against the work-only pattern, collect and sort work entries, check the
name transformation (raising `ScmNameTransformationError` with the full
map before anything is scheduled), rename the external entries (raising
`ScmNameClashError` on a collision), align, and detect moves unless
`moveMode` is `MoveNone`.  An error short-circuits: no schedule exists and
nothing is applied. -/
def punchPlan (externalEntriesRaw workEntriesRaw : List FileSystemEntry)
    (workOnlyMatches : Option (FileSystemEntry → Bool))
    (nameTransformation : Option (FileSystemEntry → List String))
    (moveMode : MoveMode) : Except ScmErrorModel PunchResult :=
  let externalEntries := sortedFileSystemEntries externalEntriesRaw
  let workOnlyCheck : Option ScmErrorModel :=
    match workOnlyMatches with
    | some matchesWorkOnly =>
      match externalEntries.find? matchesWorkOnly with
      | some item => some (.workOnlyViolation item.relativePath)
      | Option.none => Option.none
    | Option.none => Option.none
  match workOnlyCheck with
  | some err => .error err
  | Option.none =>
    let workEntries := sortedFileSystemEntries workEntriesRaw
    let m :=
      match nameTransformation with
      | some t => nonComplyingMap t workEntries
      | Option.none => []
    if m ≠ [] then .error (.nameTransformation m)
    else
      let renamedPairs :=
        externalEntries.map (fun ex => (transformedEntry nameTransformation ex, ex))
      match firstClash renamedPairs [] with
      | some (p, q) => .error (.nameClash p q)
      | Option.none =>
        let renamedExternalEntries :=
          sortedFileSystemEntries (renamedPairs.map (fun p => p.1))
        let st := setAddedModifiedRemovedItems workEntries renamedExternalEntries
        let stMoves :=
          if moveMode = MoveMode.name then setCopiedAndMovedEntries st else (st, [])
        .ok ⟨stMoves.1.entriesToAdd, stMoves.1.entriesToTransfer,
          stMoves.1.entriesToRemove, stMoves.2⟩

instance exceptDecEq {ε α : Type} [DecidableEq ε] [DecidableEq α] :
    DecidableEq (Except ε α) := fun x y =>
  match x, y with
  | .ok a, .ok b =>
    if h : a = b then isTrue (by rw [h])
    else isFalse (by intro hc; injection hc; contradiction)
  | .error a, .error b =>
    if h : a = b then isTrue (by rw [h])
    else isFalse (by intro hc; injection hc; contradiction)
  | .ok _, .error _ => isFalse (by intro hc; cases hc)
  | .error _, .ok _ => isFalse (by intro hc; cases hc)

/-! ## Claim C7: cascade suppression -/

/-- C7: an entry whose parts extend the parts of the most recently
scheduled removed folder is skipped by `_add`, `_remove` and `_transfer`
(the schedule is unchanged); in the example — work copy with folder `F`
containing one file, external tree without `F` — the plan removes exactly
`F` and nothing else. -/
theorem scunch_c7 :
    (∀ (st : PunchSchedule) (e f : FileSystemEntry),
      st.lastRemovedFolderEntry = some f →
      f.parts = e.parts.take f.parts.length →
      (scheduleAdd st [e] = st ∧ scheduleRemove st [e] = st ∧
        scheduleTransfer st [e] = st)) ∧
    punchPlan [] [⟨.folder, ["F"]⟩, ⟨.file, ["F", "x.txt"]⟩]
        Option.none Option.none MoveMode.name =
      Except.ok ⟨[], [], [⟨.folder, ["F"]⟩], []⟩ := by
  constructor
  · intro st e f hlast hpre
    have hin : isInLastRemovedFolder st e = true := by
      unfold isInLastRemovedFolder
      rw [hlast]
      dsimp only
      rw [← hpre]
      simp
    refine ⟨?_, ?_, ?_⟩ <;>
      simp [scheduleAdd, scheduleRemove, scheduleTransfer,
        scheduleAdd1, scheduleRemove1, scheduleTransfer1, hin]
  · decide

/-- Witness for C7's suppression statement at a concrete schedule: the
last removed folder `F` suppresses scheduling of the contained file. -/
theorem scunch_c7_witness :
    ((⟨[], [], [⟨.folder, ["F"]⟩], some ⟨.folder, ["F"]⟩⟩ :
        PunchSchedule).lastRemovedFolderEntry = some ⟨.folder, ["F"]⟩ ∧
      (FileSystemEntry.mk .folder ["F"]).parts =
        (FileSystemEntry.mk .file ["F", "x.txt"]).parts.take
          (FileSystemEntry.mk .folder ["F"]).parts.length) ∧
    (scheduleAdd ⟨[], [], [⟨.folder, ["F"]⟩], some ⟨.folder, ["F"]⟩⟩
        [⟨.file, ["F", "x.txt"]⟩] =
      ⟨[], [], [⟨.folder, ["F"]⟩], some ⟨.folder, ["F"]⟩⟩ ∧
     scheduleRemove ⟨[], [], [⟨.folder, ["F"]⟩], some ⟨.folder, ["F"]⟩⟩
        [⟨.file, ["F", "x.txt"]⟩] =
      ⟨[], [], [⟨.folder, ["F"]⟩], some ⟨.folder, ["F"]⟩⟩ ∧
     scheduleTransfer ⟨[], [], [⟨.folder, ["F"]⟩], some ⟨.folder, ["F"]⟩⟩
        [⟨.file, ["F", "x.txt"]⟩] =
      ⟨[], [], [⟨.folder, ["F"]⟩], some ⟨.folder, ["F"]⟩⟩) :=
  ⟨⟨rfl, by decide⟩,
    scunch_c7.1 _ ⟨.file, ["F", "x.txt"]⟩ ⟨.folder, ["F"]⟩ rfl (by decide)⟩

/-! ## Claim C8: the name-transformation precondition -/

/-- C8: when a name transformation is configured and some existing work
entry's relative path would change under it, planning stops with
`ScmNameTransformationError` carrying the full existing-to-transformed
path map — the plan (and hence any add, remove, move or transfer) is never
built, so nothing is scheduled or applied; the map contains exactly the
non-complying entries; lower-casing a work copy containing `ReadMe.txt`
yields the map `[("ReadMe.txt", "readme.txt")]`. -/
theorem scunch_c8 :
    (∀ (extRaw workRaw : List FileSystemEntry)
       (t : FileSystemEntry → List String) (moveMode : MoveMode),
      nonComplyingMap t (sortedFileSystemEntries workRaw) ≠ [] →
      punchPlan extRaw workRaw Option.none (some t) moveMode =
        .error (.nameTransformation
          (nonComplyingMap t (sortedFileSystemEntries workRaw)))) ∧
    (∀ (t : FileSystemEntry → List String)
       (workEntries : List FileSystemEntry) (p q : String),
      ((p, q) ∈ nonComplyingMap t workEntries ↔
        ∃ e ∈ workEntries, e.relativePath = p ∧
          (transformedEntry (some t) e).relativePath = q ∧ p ≠ q)) ∧
    punchPlan [] [⟨.file, ["ReadMe.txt"]⟩] Option.none
        (some LowerNameTransformation) MoveMode.name =
      .error (.nameTransformation [("ReadMe.txt", "readme.txt")]) := by
  refine ⟨?_, ?_, by decide⟩
  · intro extRaw workRaw t moveMode h
    unfold punchPlan
    dsimp only
    rw [if_pos h]
  · intro t workEntries p q
    unfold nonComplyingMap
    have main : ∀ (l : List FileSystemEntry) (acc : List (String × String)),
        ((p, q) ∈ l.foldl
            (fun m workEntry =>
              if workEntry.relativePath ≠ (transformedEntry (some t) workEntry).relativePath then
                m ++ [(workEntry.relativePath, (transformedEntry (some t) workEntry).relativePath)]
              else m) acc ↔
          (p, q) ∈ acc ∨
            ∃ e ∈ l, e.relativePath = p ∧
              (transformedEntry (some t) e).relativePath = q ∧ p ≠ q) := by
      intro l
      induction l with
      | nil => simp
      | cons x xs ih =>
        intro acc
        rw [List.foldl_cons]
        by_cases hx : x.relativePath ≠ (transformedEntry (some t) x).relativePath
        · rw [if_pos hx, ih]
          constructor
          · rintro (hmem | hrest)
            · rcases List.mem_append.mp hmem with hmem | hmem
              · exact Or.inl hmem
              · simp at hmem
                refine Or.inr ⟨x, by simp, hmem.1.symm, hmem.2.symm, ?_⟩
                rw [hmem.1, hmem.2]
                exact hx
            · obtain ⟨e, he, hrel⟩ := hrest
              exact Or.inr ⟨e, by simp [he], hrel⟩
          · rintro (hacc | ⟨e, he, h1, h2, h3⟩)
            · exact Or.inl (List.mem_append.mpr (Or.inl hacc))
            · rcases List.mem_cons.mp he with he | he
              · subst he
                exact Or.inl (List.mem_append.mpr (Or.inr (by simp [h1, h2])))
              · exact Or.inr ⟨e, he, h1, h2, h3⟩
        · rw [if_neg hx, ih]
          push_neg at hx
          constructor
          · rintro (hacc | ⟨e, he, hrel⟩)
            · exact Or.inl hacc
            · exact Or.inr ⟨e, by simp [he], hrel⟩
          · rintro (hacc | ⟨e, he, h1, h2, h3⟩)
            · exact Or.inl hacc
            · rcases List.mem_cons.mp he with he | he
              · subst he
                apply absurd _ h3
                rw [← h1, ← h2]
                exact hx
              · exact Or.inr ⟨e, he, h1, h2, h3⟩
    rw [main]
    simp

/-! ## Claim C6: move detection -/

/-- The move pair a single `(name, kind)` key contributes: the key must be
present in the removed groups and have kind `File`; the first removed and
the first added entry of the key are paired. -/
def moveKeyPair (removedNameMap : List ((String × EntryKind) × List FileSystemEntry))
    (g : (String × EntryKind) × List FileSystemEntry) :
    Option (FileSystemEntry × FileSystemEntry) :=
  match lookupGroup removedNameMap g.1 with
  | some (removedSourceEntry :: _) =>
    if g.1.2 = EntryKind.file then
      some (removedSourceEntry, g.2.headD dfltEntry)
    else Option.none
  | _ => Option.none

/-- The moves claim C6 describes, written from its wording: group the adds
and the removes by `(name, kind)` and pair the first entries of every key
present in both groups whose kind is `File`. -/
def movesSpec (st : PunchSchedule) : List (FileSystemEntry × FileSystemEntry) :=
  (groupByNameKind st.entriesToAdd).filterMap
    (moveKeyPair (groupByNameKind st.entriesToRemove))

theorem moveStep_eq (removedNameMap : List ((String × EntryKind) × List FileSystemEntry))
    (acc : PunchSchedule × List (FileSystemEntry × FileSystemEntry))
    (g : (String × EntryKind) × List FileSystemEntry) :
    moveStep removedNameMap acc g =
      match moveKeyPair removedNameMap g with
      | some (r, a) =>
        ({ acc.1 with
            entriesToRemove := removeFirstByParts acc.1.entriesToRemove r,
            entriesToAdd := removeFirstByParts acc.1.entriesToAdd a },
          acc.2 ++ [(r, a)])
      | Option.none => acc := by
  unfold moveStep moveKeyPair
  match hl : lookupGroup removedNameMap g.1 with
  | Option.none => rfl
  | some [] => rfl
  | some (r :: rest) =>
    by_cases hk : g.1.2 = EntryKind.file
    · simp only [hk, if_true]
    · simp only [hk, if_false]

theorem moveFold (removedNameMap : List ((String × EntryKind) × List FileSystemEntry))
    (groups : List ((String × EntryKind) × List FileSystemEntry)) :
    ∀ (acc : PunchSchedule × List (FileSystemEntry × FileSystemEntry)),
      ((groups.foldl (moveStep removedNameMap) acc).2 =
        acc.2 ++ groups.filterMap (moveKeyPair removedNameMap)) ∧
      ((groups.foldl (moveStep removedNameMap) acc).1.entriesToRemove =
        ((groups.filterMap (moveKeyPair removedNameMap)).map (fun p => p.1)).foldl
          removeFirstByParts acc.1.entriesToRemove) ∧
      ((groups.foldl (moveStep removedNameMap) acc).1.entriesToAdd =
        ((groups.filterMap (moveKeyPair removedNameMap)).map (fun p => p.2)).foldl
          removeFirstByParts acc.1.entriesToAdd) ∧
      ((groups.foldl (moveStep removedNameMap) acc).1.entriesToTransfer =
        acc.1.entriesToTransfer) ∧
      ((groups.foldl (moveStep removedNameMap) acc).1.lastRemovedFolderEntry =
        acc.1.lastRemovedFolderEntry) := by
  induction groups with
  | nil => intro acc; simp
  | cons g gs ih =>
    intro acc
    rw [List.foldl_cons, moveStep_eq]
    cases hk : moveKeyPair removedNameMap g with
    | none =>
      simp only [List.filterMap_cons, hk]
      exact ih acc
    | some ra =>
      obtain ⟨r, a⟩ := ra
      simp only [List.filterMap_cons, hk, List.map_cons, List.foldl_cons]
      obtain ⟨h1, h2, h3, h4, h5⟩ := ih
        ({ acc.1 with
            entriesToRemove := removeFirstByParts acc.1.entriesToRemove r,
            entriesToAdd := removeFirstByParts acc.1.entriesToAdd a },
          acc.2 ++ [(r, a)])
      refine ⟨?_, ?_, ?_, ?_, ?_⟩
      · rw [h1]; simp
      · rw [h2]
      · rw [h3]
      · rw [h4]
      · rw [h5]

/-- Every group produced by `groupByNameKind` is non-empty and its members
come from the grouped list, with the name and kind of the key. -/
theorem groupByNameKind_spec (l : List FileSystemEntry) :
    ∀ g ∈ groupByNameKind l, g.2 ≠ [] ∧
      ∀ e ∈ g.2, e ∈ l ∧ e.name = g.1.1 ∧ e.kind = g.1.2 := by
  have main : ∀ (xs : List FileSystemEntry)
      (acc : List ((String × EntryKind) × List FileSystemEntry))
      (Q : FileSystemEntry → Prop),
      (∀ x ∈ xs, Q x) →
      (∀ g ∈ acc, g.2 ≠ [] ∧ ∀ e ∈ g.2, Q e ∧ e.name = g.1.1 ∧ e.kind = g.1.2) →
      ∀ g ∈ xs.foldl
          (fun acc e =>
            let key := (e.name, e.kind)
            if acc.any (fun g => g.1 == key) then
              acc.map (fun g => if g.1 == key then (g.1, g.2 ++ [e]) else g)
            else acc ++ [(key, [e])]) acc,
        g.2 ≠ [] ∧ ∀ e ∈ g.2, Q e ∧ e.name = g.1.1 ∧ e.kind = g.1.2 := by
    intro xs
    induction xs with
    | nil => intro acc Q hQ hinv g hg; exact hinv g hg
    | cons x rest ih =>
      intro acc Q hQ hinv g hg
      rw [List.foldl_cons] at hg
      refine ih _ Q (fun y hy => hQ y (by simp [hy])) ?_ g hg
      dsimp only
      by_cases hany : acc.any (fun g => g.1 == (x.name, x.kind))
      · rw [if_pos hany]
        intro g' hg'
        rw [List.mem_map] at hg'
        obtain ⟨g0, hg0, hmap⟩ := hg'
        by_cases hkey : g0.1 == (x.name, x.kind)
        · rw [if_pos hkey] at hmap
          have hkey' : g0.1 = (x.name, x.kind) := by simpa using hkey
          obtain ⟨hne, hmem⟩ := hinv g0 hg0
          subst hmap
          refine ⟨by simp, ?_⟩
          intro e he
          rcases List.mem_append.mp he with he | he
          · obtain ⟨hq, hn, hk⟩ := hmem e he
            exact ⟨hq, hn, hk⟩
          · simp at he
            subst he
            exact ⟨hQ e (by simp), by rw [hkey'], by rw [hkey']⟩
        · rw [if_neg hkey] at hmap
          subst hmap
          exact hinv g0 hg0
      · rw [if_neg hany]
        intro g' hg'
        rcases List.mem_append.mp hg' with hg' | hg'
        · exact hinv g' hg'
        · simp at hg'
          subst hg'
          refine ⟨by simp, ?_⟩
          intro e he
          simp at he
          subst he
          exact ⟨hQ e (by simp), rfl, rfl⟩
  intro g hg
  exact main l [] (fun e => e ∈ l) (fun x hx => hx) (by simp) g hg

theorem lookupGroup_spec (m : List ((String × EntryKind) × List FileSystemEntry))
    (key : String × EntryKind) (gl : List FileSystemEntry)
    (h : lookupGroup m key = some gl) : (key, gl) ∈ m := by
  unfold lookupGroup at h
  cases hf : m.find? (fun g => g.1 == key) with
  | none => rw [hf] at h; cases h
  | some g0 =>
    rw [hf] at h
    simp at h
    have hmem := List.mem_of_find?_eq_some hf
    have hpred := List.find?_some hf
    have hkey : g0.1 = key := by simpa using hpred
    have : g0 = (key, gl) := by
      cases g0
      simp at hkey h ⊢
      exact ⟨hkey, h⟩
    rw [← this]
    exact hmem

theorem headD_mem {α : Type} (l : List α) (d : α) (h : l ≠ []) : l.headD d ∈ l := by
  cases l with
  | nil => exact absurd rfl h
  | cons x xs => simp

/-- The example entries of claim C6: the work copy holds `a/x.txt` (with
its folder `a`), the external tree `b/x.txt` (with its folder `b`). -/
def entryFolderA : FileSystemEntry := ⟨.folder, ["a"]⟩
def entryFileAX : FileSystemEntry := ⟨.file, ["a", "x.txt"]⟩
def entryFolderB : FileSystemEntry := ⟨.folder, ["b"]⟩
def entryFileBX : FileSystemEntry := ⟨.file, ["b", "x.txt"]⟩

/-- C6 counterexample: in the claim's example the scanned entry lists also
contain the folders `a` and `b`; the plan computed with move detection
enabled has two adds (`b` and `b/x.txt`), one remove (`a`, whose removal
suppresses `a/x.txt`) and no move — not "exactly one move and zero
add/remove" (under `moveMode=none` the same two adds and one remove arise,
not "one add plus one remove"). -/
theorem scunch_c6_counterexample :
    punchPlan [entryFolderB, entryFileBX] [entryFolderA, entryFileAX]
        Option.none Option.none MoveMode.name =
      Except.ok ⟨[entryFolderB, entryFileBX], [], [entryFolderA], []⟩ ∧
    punchPlan [entryFolderB, entryFileBX] [entryFolderA, entryFileAX]
        Option.none Option.none MoveMode.none =
      Except.ok ⟨[entryFolderB, entryFileBX], [], [entryFolderA], []⟩ := by
  constructor <;> decide

/-- C6 amended: `_setCopiedAndMovedEntries` groups the scheduled adds and
removes by `(name, kind)` and, for every key present in both groups whose
kind is `File`, removes the first removed and first added entry of the key
from the schedule and records them as one move — folders are never moved,
every move pair consists of two files of equal name drawn from the
scheduled removes and adds, and with `moveMode = none` no move detection
runs.  In the `a/x.txt` example the folder entries participate: folder `a`
is removed first and suppresses `a/x.txt`, so both move modes produce adds
`{b, b/x.txt}`, remove `{a}` and no move. -/
theorem scunch_c6 :
    (∀ st : PunchSchedule,
      (setCopiedAndMovedEntries st).2 = movesSpec st ∧
      (setCopiedAndMovedEntries st).1.entriesToRemove =
        ((movesSpec st).map (fun p => p.1)).foldl removeFirstByParts st.entriesToRemove ∧
      (setCopiedAndMovedEntries st).1.entriesToAdd =
        ((movesSpec st).map (fun p => p.2)).foldl removeFirstByParts st.entriesToAdd ∧
      (setCopiedAndMovedEntries st).1.entriesToTransfer = st.entriesToTransfer ∧
      (∀ p ∈ (setCopiedAndMovedEntries st).2,
        p.1.kind = EntryKind.file ∧ p.2.kind = EntryKind.file ∧
        p.1.name = p.2.name ∧
        p.1 ∈ st.entriesToRemove ∧ p.2 ∈ st.entriesToAdd)) ∧
    (∀ (extRaw workRaw : List FileSystemEntry) (res : PunchResult),
      punchPlan extRaw workRaw Option.none Option.none MoveMode.none = .ok res →
      res.entriesToMove = []) ∧
    punchPlan [entryFolderB, entryFileBX] [entryFolderA, entryFileAX]
        Option.none Option.none MoveMode.name =
      Except.ok ⟨[entryFolderB, entryFileBX], [], [entryFolderA], []⟩ := by
  refine ⟨?_, ?_, by decide⟩
  · intro st
    have hfold := moveFold (groupByNameKind st.entriesToRemove)
      (groupByNameKind st.entriesToAdd) (st, [])
    obtain ⟨h1, h2, h3, h4, -⟩ := hfold
    have hmoves : (setCopiedAndMovedEntries st).2 = movesSpec st := by
      unfold setCopiedAndMovedEntries movesSpec
      rw [h1]
      simp
    refine ⟨hmoves, ?_, ?_, ?_, ?_⟩
    · unfold setCopiedAndMovedEntries
      rw [h2]
      unfold movesSpec
      rfl
    · unfold setCopiedAndMovedEntries
      rw [h3]
      unfold movesSpec
      rfl
    · unfold setCopiedAndMovedEntries
      rw [h4]
    · intro p hp
      rw [hmoves] at hp
      unfold movesSpec at hp
      rw [List.mem_filterMap] at hp
      obtain ⟨g, hg, hpair⟩ := hp
      unfold moveKeyPair at hpair
      cases hl : lookupGroup (groupByNameKind st.entriesToRemove) g.1 with
      | none => rw [hl] at hpair; cases hpair
      | some gl =>
        rw [hl] at hpair
        cases gl with
        | nil => cases hpair
        | cons r rest =>
          dsimp only at hpair
          by_cases hk : g.1.2 = EntryKind.file
          · rw [if_pos hk] at hpair
            have hp' : p = (r, g.2.headD dfltEntry) := by
              injection hpair with h
              exact h.symm
            subst hp'
            have haddspec := groupByNameKind_spec st.entriesToAdd g hg
            have hremmem := lookupGroup_spec _ _ _ hl
            have hremspec := groupByNameKind_spec st.entriesToRemove (g.1, r :: rest) hremmem
            have hrprops := hremspec.2 r (by simp)
            have haprops := haddspec.2 (g.2.headD dfltEntry)
              (headD_mem g.2 dfltEntry haddspec.1)
            refine ⟨?_, ?_, ?_, hrprops.1, haprops.1⟩
            · rw [hrprops.2.2, hk]
            · rw [haprops.2.2, hk]
            · rw [hrprops.2.1, haprops.2.1]
          · rw [if_neg hk] at hpair
            cases hpair
  · intro extRaw workRaw res hok
    unfold punchPlan at hok
    dsimp only at hok
    rw [if_neg (by simp)] at hok
    cases hcl : firstClash ((sortedFileSystemEntries extRaw).map
        (fun ex => (transformedEntry Option.none ex, ex))) [] with
    | none =>
      rw [hcl] at hok
      dsimp only at hok
      rw [if_neg (by decide)] at hok
      injection hok with hok
      rw [← hok]
    | some pq =>
      rw [hcl] at hok
      obtain ⟨p, q⟩ := pq
      cases hok

/-! ## Claim C5: idempotence

When the sorted work entries equal (entry by entry, comparison by `parts`)
the sorted renamed external entries, the `SequenceMatcher` alignment is a
single `equal` opcode, so only transfers are scheduled and move detection
finds nothing. -/

theorem entryBeq_iff (x y : FileSystemEntry) : entryBeq x y = true ↔ x.parts = y.parts := by
  simp [entryBeq]

/-- No two entries of the list share their `parts` (Python set invariant). -/
def pairwiseNe (l : List FileSystemEntry) : Prop :=
  l.Pairwise (fun x y => entryBeq x y = false)

theorem addEntryToSet_pairwiseNe (l : List FileSystemEntry) (e : FileSystemEntry)
    (h : pairwiseNe l) : pairwiseNe (addEntryToSet l e) := by
  unfold addEntryToSet
  by_cases hany : l.any (fun x => entryBeq x e) = true
  · rw [if_pos hany]; exact h
  · rw [if_neg hany]
    unfold pairwiseNe at h ⊢
    rw [List.pairwise_append]
    refine ⟨h, List.pairwise_singleton _ _, ?_⟩
    intro x hx y hy
    simp at hy
    subst hy
    cases hxe : entryBeq x y with
    | false => rfl
    | true => exact absurd (by rw [List.any_eq_true]; exact ⟨x, hx, hxe⟩) hany

theorem foldl_addEntryToSet_pairwiseNe (l : List FileSystemEntry) :
    ∀ acc, pairwiseNe acc → pairwiseNe (l.foldl addEntryToSet acc) := by
  induction l with
  | nil => intro acc h; exact h
  | cons x xs ih => intro acc h; exact ih _ (addEntryToSet_pairwiseNe acc x h)

theorem insertEntry_perm (e : FileSystemEntry) (l : List FileSystemEntry) :
    List.Perm (insertEntry e l) (e :: l) := by
  induction l with
  | nil => exact List.Perm.refl _
  | cons x xs ih =>
    unfold insertEntry
    by_cases h : entryLE e x = true
    · rw [if_pos h]
    · rw [if_neg h]
      exact (ih.cons x).trans (List.Perm.swap e x xs)

theorem insertionSortEntries_perm (l : List FileSystemEntry) :
    List.Perm (insertionSortEntries l) l := by
  induction l with
  | nil => exact List.Perm.refl _
  | cons x xs ih =>
    exact (insertEntry_perm x (insertionSortEntries xs)).trans (ih.cons x)

theorem sortedFileSystemEntries_pairwiseNe (l : List FileSystemEntry) :
    pairwiseNe (sortedFileSystemEntries l) := by
  unfold sortedFileSystemEntries
  have hdedup := foldl_addEntryToSet_pairwiseNe l [] List.Pairwise.nil
  have hperm := (insertionSortEntries_perm (l.foldl addEntryToSet [])).symm
  unfold pairwiseNe at hdedup ⊢
  refine List.Pairwise.perm hdedup hperm ?_
  intro x y hxy
  cases hc : entryBeq y x with
  | false => rfl
  | true =>
    rw [entryBeq_iff] at hc
    have : entryBeq x y = true := by rw [entryBeq_iff]; exact hc.symm
    rw [this] at hxy
    cases hxy

/-- The key fact behind the equal-lists alignment: with `b` duplicate-free
and `a` equal to `b` element by element, `b`'s element at `j` equals `a`'s
element at `i` exactly when `j = i`. -/
theorem equal_lists_key (a b : List FileSystemEntry)
    (heq : List.Forall₂ (fun x y => entryBeq x y = true) a b)
    (hnd : pairwiseNe b) :
    ∀ i j, i < b.length → j < b.length →
      (entryBeq (b.getD j dfltEntry) (a.getD i dfltEntry) = true ↔ j = i) := by
  have hlen := heq.length_eq
  rw [List.forall₂_iff_get] at heq
  intro i j hi hj
  have hia : i < a.length := by omega
  have hget := heq.2 i hia hi
  rw [List.getD_eq_get _ _ hia, List.getD_eq_get _ _ hj]
  rw [entryBeq_iff] at hget ⊢
  constructor
  · intro hparts
    by_contra hne
    have hparts' : (b.get ⟨j, hj⟩).parts = (b.get ⟨i, hi⟩).parts := by
      rw [hparts, hget]
    rw [pairwiseNe, List.pairwise_iff_get] at hnd
    rcases Nat.lt_or_ge j i with hlt | hge
    · have hfalse := hnd ⟨j, hj⟩ ⟨i, hi⟩ (Fin.mk_lt_mk.mpr hlt)
      have htrue : entryBeq (b.get ⟨j, hj⟩) (b.get ⟨i, hi⟩) = true := by
        rw [entryBeq_iff]; exact hparts'
      rw [htrue] at hfalse; cases hfalse
    · have hlt' : i < j := by omega
      have hfalse := hnd ⟨i, hi⟩ ⟨j, hj⟩ (Fin.mk_lt_mk.mpr hlt')
      have htrue : entryBeq (b.get ⟨i, hi⟩) (b.get ⟨j, hj⟩) = true := by
        rw [entryBeq_iff]; exact hparts'.symm
      rw [htrue] at hfalse; cases hfalse
  · intro hji
    subst hji
    exact hget.symm

theorem filter_range_eq_singleton (n i : Nat) (p : Nat → Bool) (hi : i < n)
    (hp : ∀ j, j < n → (p j = true ↔ j = i)) :
    (List.range n).filter p = [i] := by
  induction n with
  | zero => omega
  | succ m ih =>
    rw [List.range_succ, List.filter_append]
    by_cases him : i < m
    · rw [ih him (fun j hj => hp j (by omega))]
      have hm : p m = false := by
        cases hpm : p m with
        | false => rfl
        | true => exact absurd ((hp m (by omega)).mp hpm) (by omega)
      simp [List.filter_cons, hm]
    · have him' : i = m := by omega
      subst him'
      have h1 : (List.range i).filter p = [] := by
        rw [List.filter_eq_nil_iff]
        intro j hj
        rw [List.mem_range] at hj
        have := hp j (by omega)
        intro hpj
        exact absurd (this.mp hpj) (by omega)
      rw [h1]
      have hpi : p i = true := (hp i (by omega)).mpr rfl
      simp [List.filter_cons, hpi]

theorem indicesOf_eq_singleton (b : List FileSystemEntry) (x : FileSystemEntry) (i : Nat)
    (hi : i < b.length)
    (hkey : ∀ j, j < b.length → (entryBeq (b.getD j dfltEntry) x = true ↔ j = i)) :
    indicesOf b x = [i] :=
  filter_range_eq_singleton b.length i _ hi hkey

theorem b2jOf_eq_singleton (b : List FileSystemEntry) (x : FileSystemEntry) (i : Nat)
    (hi : i < b.length)
    (hkey : ∀ j, j < b.length → (entryBeq (b.getD j dfltEntry) x = true ↔ j = i)) :
    b2jOf b x = [i] := by
  unfold b2jOf
  rw [indicesOf_eq_singleton b x i hi hkey]
  rw [if_neg]
  rintro ⟨-, h2⟩
  simp at h2

/-- The `j2len` row of `find_longest_match` after the outer loop has
processed indices `0 .. i-1` on two equal duplicate-free lists: a single
diagonal entry of length `i` ending at `j = i - 1`. -/
def flmRow (i : Nat) : Nat → Nat := fun j => if j + 1 = i then i else 0

theorem flmOuter_equal (a b : List FileSystemEntry) (n : Nat)
    (hb : b.length = n)
    (hkey : ∀ i j, i < n → j < n →
      (entryBeq (b.getD j dfltEntry) (a.getD i dfltEntry) = true ↔ j = i)) :
    ∀ d i, i + d = n →
      flmOuter a b 0 n (List.range' i d) (0, 0, i) (flmRow i) = (0, 0, n) := by
  intro d
  induction d with
  | zero =>
    intro i hi
    have : i = n := by omega
    subst this
    rfl
  | succ m ih =>
    intro i hi
    rw [List.range'_succ]
    have hin : i < n := by omega
    have hjs : b2jOf b (a.getD i dfltEntry) = [i] :=
      b2jOf_eq_singleton b _ i (by omega) (fun j hj => hkey i j hin (by omega))
    have hinner : flmInner i 0 n (flmRow i) [i] ((0, 0, i), fun _ => 0) =
        ((0, 0, i + 1), flmRow (i + 1)) := by
      unfold flmInner
      rw [if_neg (by omega), if_neg (by omega)]
      have hk : (if i = 0 then 0 else flmRow i (i - 1)) + 1 = i + 1 := by
        by_cases h0 : i = 0
        · rw [if_pos h0, h0]
        · rw [if_neg h0]
          unfold flmRow
          rw [if_pos (by omega)]
      rw [hk]
      dsimp only
      rw [if_pos (show i < i + 1 by omega)]
      have h0 : i + 1 - (i + 1) = 0 := by omega
      rw [h0]
      have hrow : (fun j' => if j' = i then i + 1 else 0) = flmRow (i + 1) := by
        funext j'
        unfold flmRow
        by_cases hji : j' = i
        · rw [if_pos hji, if_pos (by omega)]
        · rw [if_neg hji, if_neg (by omega)]
      rw [hrow]
      rfl
    unfold flmOuter
    rw [hjs]
    dsimp only
    rw [hinner]
    exact ih (i + 1) (by omega)

theorem findLongestMatch_equal (a b : List FileSystemEntry) (n : Nat)
    (hb : b.length = n)
    (hkey : ∀ i j, i < n → j < n →
      (entryBeq (b.getD j dfltEntry) (a.getD i dfltEntry) = true ↔ j = i)) :
    findLongestMatch a b 0 n 0 n = (0, 0, n) := by
  unfold findLongestMatch
  have h0 : (fun _ => 0 : Nat → Nat) = flmRow 0 := by
    funext j
    unfold flmRow
    rw [if_neg (by omega)]
  have hdp : flmOuter a b 0 n (List.range' 0 (n - 0)) (0, 0, 0) (fun _ => 0) = (0, 0, n) := by
    rw [h0, Nat.sub_zero]
    exact flmOuter_equal a b n hb hkey n 0 (by omega)
  rw [hdp]
  have hr : extendRightAux a b n n n 0 0 n = n := by
    cases n with
    | zero => rfl
    | succ f =>
      unfold extendRightAux
      rw [if_neg]
      rintro ⟨h1, -⟩
      omega
  exact congrArg (fun s => ((0 : Nat), (0 : Nat), s)) hr

theorem gmbLoop_nil (a b : List FileSystemEntry) (fuel : Nat)
    (acc : List (Nat × Nat × Nat)) : gmbLoop a b fuel [] acc = acc := by
  cases fuel with
  | zero => rfl
  | succ f => rfl

theorem getOpcodes_equal (a b : List FileSystemEntry) (n : Nat) (hn : 0 < n)
    (ha : a.length = n) (hb : b.length = n)
    (hkey : ∀ i j, i < n → j < n →
      (entryBeq (b.getD j dfltEntry) (a.getD i dfltEntry) = true ↔ j = i)) :
    getOpcodes a b = [(OpTag.equal, 0, n, 0, n)] := by
  have hflm := findLongestMatch_equal a b n hb hkey
  unfold getOpcodes getMatchingBlocks
  rw [ha, hb]
  have hblocks : gmbLoop a b (n + n + 1) [(0, n, 0, n)] [] = [(0, 0, n)] := by
    unfold gmbLoop
    rw [hflm]
    rw [if_pos hn]
    rw [if_neg (by rintro ⟨h1, -⟩; omega)]
    dsimp only
    rw [if_neg (by rintro ⟨h1, -⟩; omega)]
    exact gmbLoop_nil a b (n + n) [(0, 0, n)]
  rw [hblocks]
  dsimp only
  have hsort : insertionSortTriples [(0, 0, n)] = [(0, 0, n)] := rfl
  rw [hsort]
  have hmerge : mergeBlocks [(0, 0, n)] (0, 0, 0) = [(0, 0, n)] := by
    unfold mergeBlocks
    rw [if_pos ⟨rfl, rfl⟩]
    rw [Nat.zero_add]
    unfold mergeBlocks
    rw [if_pos hn]
  rw [hmerge]
  have happ : [(0, 0, n)] ++ [(n, n, 0)] = [(0, 0, n), (n, n, 0)] := rfl
  rw [happ]
  simp [getOpcodesLoop, hn]

theorem scheduleTransfer1_preserves (st : PunchSchedule) (x : FileSystemEntry) :
    (scheduleTransfer1 st x).entriesToAdd = st.entriesToAdd ∧
    (scheduleTransfer1 st x).entriesToRemove = st.entriesToRemove ∧
    (scheduleTransfer1 st x).lastRemovedFolderEntry = st.lastRemovedFolderEntry := by
  unfold scheduleTransfer1
  split
  · exact ⟨rfl, rfl, rfl⟩
  · exact ⟨rfl, rfl, rfl⟩

theorem scheduleTransfer_preserves (entries : List FileSystemEntry) :
    ∀ st : PunchSchedule,
      (scheduleTransfer st entries).entriesToAdd = st.entriesToAdd ∧
      (scheduleTransfer st entries).entriesToRemove = st.entriesToRemove ∧
      (scheduleTransfer st entries).lastRemovedFolderEntry = st.lastRemovedFolderEntry := by
  induction entries with
  | nil => intro st; exact ⟨rfl, rfl, rfl⟩
  | cons x xs ih =>
    intro st
    unfold scheduleTransfer at ih ⊢
    rw [List.foldl_cons]
    obtain ⟨h1, h2, h3⟩ := ih (scheduleTransfer1 st x)
    obtain ⟨g1, g2, g3⟩ := scheduleTransfer1_preserves st x
    exact ⟨h1.trans g1, h2.trans g2, h3.trans g3⟩

theorem setAddedModifiedRemovedItems_equal (w e : List FileSystemEntry)
    (heq : List.Forall₂ (fun x y => entryBeq x y = true) w e)
    (hnd : pairwiseNe e) :
    (setAddedModifiedRemovedItems w e).entriesToAdd = [] ∧
    (setAddedModifiedRemovedItems w e).entriesToRemove = [] := by
  have hlen : w.length = e.length := heq.length_eq
  have hkey := equal_lists_key w e heq hnd
  cases hn : e.length with
  | zero =>
    have hw : w = [] := List.length_eq_zero.mp (by omega)
    have he : e = [] := List.length_eq_zero.mp hn
    subst hw he
    exact ⟨rfl, rfl⟩
  | succ m =>
    have hops : getOpcodes w e = [(OpTag.equal, 0, m + 1, 0, m + 1)] :=
      getOpcodes_equal w e (m + 1) (by omega) (by omega) hn
        (by rw [← hn]; exact hkey)
    unfold setAddedModifiedRemovedItems
    rw [hops]
    rw [List.foldl_cons, List.foldl_nil]
    unfold applyOpcode
    obtain ⟨h1, h2, -⟩ :=
      scheduleTransfer_preserves (pySlice e 0 (m + 1)) ⟨[], [], [], none⟩
    exact ⟨h1, h2⟩

theorem setCopiedAndMovedEntries_no_adds (st : PunchSchedule)
    (h : st.entriesToAdd = []) : setCopiedAndMovedEntries st = (st, []) := by
  unfold setCopiedAndMovedEntries
  rw [h]
  rfl

/-- C5: when the sorted work-copy entries equal — entry by entry, entries
comparing by `parts` — the sorted name-transformed external entries, any
successfully computed punch plan has no adds, no removes and no moves;
only transfers can be scheduled. -/
theorem scunch_c5 (extRaw workRaw : List FileSystemEntry)
    (workOnlyMatches : Option (FileSystemEntry → Bool))
    (nameTransformation : Option (FileSystemEntry → List String))
    (moveMode : MoveMode) (res : PunchResult)
    (hok : punchPlan extRaw workRaw workOnlyMatches nameTransformation moveMode =
      Except.ok res)
    (hsame : List.Forall₂ (fun x y => entryBeq x y = true)
      (sortedFileSystemEntries workRaw)
      (sortedFileSystemEntries
        ((sortedFileSystemEntries extRaw).map (transformedEntry nameTransformation)))) :
    res.entriesToAdd = [] ∧ res.entriesToRemove = [] ∧ res.entriesToMove = [] := by
  have hbridge : ((sortedFileSystemEntries extRaw).map
        (fun ex => (transformedEntry nameTransformation ex, ex))).map (fun p => p.1) =
      (sortedFileSystemEntries extRaw).map (transformedEntry nameTransformation) := by
    rw [List.map_map]
    rfl
  unfold punchPlan at hok
  dsimp only at hok
  cases hwo : (match workOnlyMatches with
      | some matchesWorkOnly =>
        match (sortedFileSystemEntries extRaw).find? matchesWorkOnly with
        | some item => some (ScmErrorModel.workOnlyViolation item.relativePath)
        | Option.none => Option.none
      | Option.none => (Option.none : Option ScmErrorModel)) with
  | some err => rw [hwo] at hok; exact Except.noConfusion hok
  | none =>
    rw [hwo] at hok
    dsimp only at hok
    by_cases hm : (match nameTransformation with
        | some t => nonComplyingMap t (sortedFileSystemEntries workRaw)
        | Option.none => []) ≠ []
    · rw [if_pos hm] at hok; exact Except.noConfusion hok
    · rw [if_neg hm] at hok
      cases hcl : firstClash ((sortedFileSystemEntries extRaw).map
          (fun ex => (transformedEntry nameTransformation ex, ex))) [] with
      | some pq =>
        rw [hcl] at hok
        obtain ⟨p, q⟩ := pq
        exact Except.noConfusion hok
      | none =>
        rw [hcl] at hok
        dsimp only at hok
        rw [hbridge] at hok
        have hmain := setAddedModifiedRemovedItems_equal
          (sortedFileSystemEntries workRaw)
          (sortedFileSystemEntries
            ((sortedFileSystemEntries extRaw).map (transformedEntry nameTransformation)))
          hsame
          (sortedFileSystemEntries_pairwiseNe _)
        have hmv : (if moveMode = MoveMode.name then
            setCopiedAndMovedEntries
              (setAddedModifiedRemovedItems
                (sortedFileSystemEntries workRaw)
                (sortedFileSystemEntries
                  ((sortedFileSystemEntries extRaw).map
                    (transformedEntry nameTransformation))))
          else
            (setAddedModifiedRemovedItems
                (sortedFileSystemEntries workRaw)
                (sortedFileSystemEntries
                  ((sortedFileSystemEntries extRaw).map
                    (transformedEntry nameTransformation))), [])) =
          (setAddedModifiedRemovedItems
              (sortedFileSystemEntries workRaw)
              (sortedFileSystemEntries
                ((sortedFileSystemEntries extRaw).map
                  (transformedEntry nameTransformation))), []) := by
          split
          · exact setCopiedAndMovedEntries_no_adds _ hmain.1
          · rfl
        rw [hmv] at hok
        injection hok with hres
        rw [← hres]
        exact ⟨hmain.1, hmain.2, rfl⟩

/-- C5 witness: a work copy and an external tree both holding the single
file `x.txt` plan with no adds, removes or moves. -/
theorem scunch_c5_witness :
    punchPlan [⟨EntryKind.file, ["x.txt"]⟩] [⟨EntryKind.file, ["x.txt"]⟩]
        Option.none Option.none MoveMode.name =
      Except.ok ⟨[], [⟨EntryKind.file, ["x.txt"]⟩], [], []⟩ ∧
    (PunchResult.mk [] [⟨EntryKind.file, ["x.txt"]⟩] [] []).entriesToAdd = [] ∧
    (PunchResult.mk [] [⟨EntryKind.file, ["x.txt"]⟩] [] []).entriesToRemove = [] ∧
    (PunchResult.mk [] [⟨EntryKind.file, ["x.txt"]⟩] [] []).entriesToMove = [] :=
  ⟨by decide,
   scunch_c5 [⟨EntryKind.file, ["x.txt"]⟩] [⟨EntryKind.file, ["x.txt"]⟩]
     Option.none Option.none MoveMode.name
     ⟨[], [⟨EntryKind.file, ["x.txt"]⟩], [], []⟩
     (by decide)
     (List.Forall₂.cons (by decide) List.Forall₂.nil)⟩

end Scunch
